import Mathlib

/-!
# ProxyDAV — verification of the virtual filesystem and WebDAV handler

A shallow embedding of ProxyDAV's virtual filesystem
(`internal/filesystem/filesystem.go`) and of the WebDAV protocol handler
(`internal/handlers/webdav.go`), together with theorems settling the
specification's claims about them.

Go strings are modelled as `List Char` (Go string comparison and slicing are
bytewise; UTF-8 byte order agrees with codepoint order, so `List Char` with
codepoint comparison is an order-faithful model).  The Go standard library
path helpers used by the code (`path.Clean`, `path.Dir`, `path.Base`,
`strings.TrimPrefix`, `strings.TrimSuffix`, `strings.HasPrefix`,
`strings.SplitN`) are implemented below, segment-faithfully.

The persistent store is modelled as infallible: every claim under scrutiny is
about behaviour when persistence succeeds, and the store's contents never
feed back into the checks the claims mention.  Consequently the Go methods'
`error` results arise exactly from their explicit validation branches, and a
mutation method is modelled as `VirtualFS → args → VirtualFS × Option String`
(the state after the call, and `some message` iff the Go method returned a
non-nil error).
-/

namespace ProxyDAV

/-- A Go string, as its list of characters. -/
abbrev GoStr := List Char

/-- Coerce a Lean string literal to the `GoStr` model. -/
def str (s : String) : GoStr := s.data

/-! ## Go standard-library string and path helpers -/

/-- `strings.TrimPrefix(s, "/")`: removes one leading `'/'` if present. -/
def trimLeadSlash : GoStr → GoStr
  | '/' :: cs => cs
  | p => p

/-- `strings.Split(p, "/")`: split on every `'/'`; never returns `[]`. -/
def splitSlash : GoStr → List GoStr
  | [] => [[]]
  | c :: cs =>
    match splitSlash cs with
    | [] => [[]]
    | s :: rest => if c = '/' then [] :: s :: rest else (c :: s) :: rest

/-- One step of `path.Clean`'s element processing, on a stack of already
emitted elements (head = most recently emitted).  Mirrors the three cases of
Go's loop: empty/`.` elements are skipped; `..` backtracks when an element is
available to erase (for a rooted path always, for an unrooted path only when
the top is not itself `..`), otherwise it is dropped (rooted) or emitted
(unrooted); any other element is emitted. -/
def cleanOne (rooted : Bool) (acc : List GoStr) (s : GoStr) : List GoStr :=
  if s = [] ∨ s = ['.'] then acc
  else if s = ['.', '.'] then
    match acc with
    | [] => if rooted then [] else [['.', '.']]
    | a :: as =>
      if rooted then as
      else if a = ['.', '.'] then ['.', '.'] :: a :: as else as
  else s :: acc

/-- `path.Clean`'s element processing over a whole split path. -/
def cleanSegs (rooted : Bool) (segs : List GoStr) : List GoStr :=
  (segs.foldl (cleanOne rooted) []).reverse

/-- Join path elements into a rooted path string: `[] ↦ "/"`,
`[a, b] ↦ "/a/b"`. -/
def joinSegs (segs : List GoStr) : GoStr :=
  match segs with
  | [] => ['/']
  | _ => segs.foldr (fun s acc => '/' :: (s ++ acc)) []

/-- Go `path.Clean`. -/
def goClean (p : GoStr) : GoStr :=
  if p = [] then ['.']
  else
    let rooted := p.head? = some '/'
    let res := cleanSegs rooted (splitSlash p)
    if res = [] then (if rooted then ['/'] else ['.'])
    else if rooted then joinSegs res
    else List.intercalate ['/'] res

/-- Everything up to and including the last `'/'` of `p` (Go
`path.Split(p)`'s first component); `[]` when `p` has no slash. -/
def takeToLastSlash : GoStr → GoStr
  | [] => []
  | c :: cs =>
    let r := takeToLastSlash cs
    if r = [] then (if c = '/' then ['/'] else []) else c :: r

/-- Go `path.Dir`. -/
def goDir (p : GoStr) : GoStr := goClean (takeToLastSlash p)

/-- Go `path.Base`. -/
def goBase (p : GoStr) : GoStr :=
  if p = [] then ['.']
  else
    let q := (p.reverse.dropWhile (· = '/')).reverse
    if q = [] then ['/']
    else (q.reverse.takeWhile (· ≠ '/')).reverse

/-- `strings.HasPrefix`, as a boolean on the char-list model. -/
def isPrefOf : GoStr → GoStr → Bool
  | [], _ => true
  | _ :: _, [] => false
  | a :: as, b :: bs => if a = b then isPrefOf as bs else false

/-- General `strings.TrimPrefix`. -/
def trimPref (pre p : GoStr) : GoStr :=
  if isPrefOf pre p then p.drop pre.length else p

/-- `strings.TrimSuffix(p, "/")`: removes one trailing `'/'` if present. -/
def trimOneTrailSlash (p : GoStr) : GoStr :=
  if p.getLast? = some '/' then p.dropLast else p

/-- The path canonicalisation applied by every VFS entry point:
`path.Clean("/" + strings.TrimPrefix(p, "/"))`. -/
def normalize (p : GoStr) : GoStr := goClean ('/' :: trimLeadSlash p)

/-! ## The virtual filesystem (internal/filesystem/filesystem.go) -/

/-- `types.VirtualItem`. -/
structure VirtualItem where
  name : GoStr
  path : GoStr
  url : GoStr
  isDir : Bool
deriving Repr, DecidableEq

/-- `filesystem.VirtualFS`: the `items` map (path → VirtualItem) as an
association list with distinct keys, and the `dirs` set as a list.  Go map
iteration order is unspecified; every operation below is insensitive to it
except for tie order inside `ListDir`'s sort, so a deterministic list model
is faithful. -/
structure VirtualFS where
  items : List (GoStr × VirtualItem)
  dirs : List GoStr
deriving Repr, DecidableEq

/-- Map lookup `vfs.items[k]`. -/
def lookupKey (k : GoStr) : List (GoStr × VirtualItem) → Option VirtualItem
  | [] => none
  | e :: rest => if e.1 = k then some e.2 else lookupKey k rest

/-- Map deletion `delete(vfs.items, k)`. -/
def eraseKey (k : GoStr) : List (GoStr × VirtualItem) → List (GoStr × VirtualItem)
  | [] => []
  | e :: rest => if e.1 = k then eraseKey k rest else e :: eraseKey k rest

/-- Map insertion/overwrite `vfs.items[k] = v`. -/
def setKey (k : GoStr) (v : VirtualItem) (l : List (GoStr × VirtualItem)) :
    List (GoStr × VirtualItem) :=
  (k, v) :: eraseKey k l

/-- Set membership `vfs.dirs[k]`. -/
def hasDir : List GoStr → GoStr → Bool
  | [], _ => false
  | d :: rest, k => if d = k then true else hasDir rest k

/-- Set insertion `vfs.dirs[k] = true`. -/
def addDir (k : GoStr) (l : List GoStr) : List GoStr :=
  if hasDir l k then l else k :: l

/-- Set deletion `delete(vfs.dirs, k)`. -/
def removeDir (k : GoStr) : List GoStr → List GoStr
  | [] => []
  | d :: rest => if d = k then removeDir k rest else d :: removeDir k rest

/-- The state `filesystem.New` builds from an empty store:
no items, and `dirs["/"] = true`. -/
def initialVFS : VirtualFS := { items := [], dirs := [str "/"] }

/-- `VirtualFS.Exists`. -/
def VirtualFS.Exists (fs : VirtualFS) (p : GoStr) : Bool :=
  (lookupKey p fs.items).isSome || hasDir fs.dirs p

/-- `VirtualFS.IsDir` (also the lock-free internal `isDir`, whose body is
identical). -/
def VirtualFS.IsDir (fs : VirtualFS) (p : GoStr) : Bool :=
  match lookupKey p fs.items with
  | some item => item.isDir
  | none => hasDir fs.dirs p

/-- `VirtualFS.GetItem`. -/
def VirtualFS.GetItem (fs : VirtualFS) (p : GoStr) : Option VirtualItem :=
  lookupKey p fs.items

/-- The parent-directory loop of `addFileToMemory`
(`for dir != "/" && dir != "." { if !vfs.dirs[dir] {…}; dir = path.Dir(dir) }`),
with explicit fuel.  The fuel passed by `addFileToMemory` provably exceeds the
number of iterations on every canonical path, so the translation is exact. -/
def addParents : Nat → VirtualFS → GoStr → VirtualFS
  | 0, fs, _ => fs
  | n + 1, fs, dir =>
    if dir = str "/" ∨ dir = str "." then fs
    else
      let fs' : VirtualFS :=
        if hasDir fs.dirs dir then fs
        else { items := setKey dir ⟨goBase dir, dir, [], true⟩ fs.items,
               dirs := addDir dir fs.dirs }
      addParents n fs' (goDir dir)

/-- `VirtualFS.addFileToMemory`. -/
def addFileToMemory (fs : VirtualFS) (filePath fileURL : GoStr) : VirtualFS :=
  let fp := normalize filePath
  let fs1 : VirtualFS :=
    { fs with items := setKey fp ⟨goBase fp, fp, fileURL, false⟩ fs.items }
  addParents (fp.length + 1) fs1 (goDir fp)

/-- `vfs.items` has a child of directory `dir`
(the `hasChildren` scan of `cleanupEmptyDirectories`). -/
def anyKeyDir (dir : GoStr) : List (GoStr × VirtualItem) → Bool
  | [] => false
  | e :: rest => if goDir e.1 = dir then true else anyKeyDir dir rest

/-- The upward walk of `cleanupEmptyDirectories`, with explicit fuel
(sufficient on every canonical path, see `addParents`). -/
def cleanupFuel : Nat → VirtualFS → GoStr → VirtualFS
  | 0, fs, _ => fs
  | n + 1, fs, dir =>
    if dir = str "/" ∨ dir = str "." then fs
    else if anyKeyDir dir fs.items then fs
    else cleanupFuel n
      { items := eraseKey dir fs.items, dirs := removeDir dir fs.dirs } (goDir dir)

/-- `VirtualFS.cleanupEmptyDirectories`. -/
def cleanupEmptyDirectories (fs : VirtualFS) (filePath : GoStr) : VirtualFS :=
  cleanupFuel (filePath.length + 1) fs (goDir filePath)

/-- The loop of `VirtualFS.ensureDirectoriesExist` (checks `vfs.items`,
unlike `addFileToMemory`'s loop which checks `vfs.dirs`). -/
def ensureFuel : Nat → VirtualFS → GoStr → VirtualFS
  | 0, fs, _ => fs
  | n + 1, fs, dir =>
    if dir = str "/" ∨ dir = str "." then fs
    else
      let fs' : VirtualFS :=
        if (lookupKey dir fs.items).isSome then fs
        else { items := setKey dir ⟨goBase dir, dir, [], true⟩ fs.items,
               dirs := addDir dir fs.dirs }
      ensureFuel n fs' (goDir dir)

/-- `VirtualFS.ensureDirectoriesExist`. -/
def ensureDirectoriesExist (fs : VirtualFS) (filePath : GoStr) : VirtualFS :=
  ensureFuel (filePath.length + 1) fs (goDir filePath)

/-- `VirtualFS.AddFile`. -/
def VirtualFS.AddFile (fs : VirtualFS) (filePath fileURL : GoStr) :
    VirtualFS × Option String :=
  let fp := normalize filePath
  if (lookupKey fp fs.items).isSome then (fs, some "file already exists at path")
  else if hasDir fs.dirs fp then (fs, some "directory exists at path")
  else (addFileToMemory fs fp fileURL, none)

/-- `VirtualFS.UpdateFile`. -/
def VirtualFS.UpdateFile (fs : VirtualFS) (filePath fileURL : GoStr) :
    VirtualFS × Option String :=
  let fp := normalize filePath
  match lookupKey fp fs.items with
  | none => (fs, some "file not found at path")
  | some item =>
    if item.isDir then (fs, some "cannot update directory at path")
    else ({ fs with items := setKey fp { item with url := fileURL } fs.items }, none)

/-- `VirtualFS.RemoveFile`. -/
def VirtualFS.RemoveFile (fs : VirtualFS) (filePath : GoStr) :
    VirtualFS × Option String :=
  let fp := normalize filePath
  match lookupKey fp fs.items with
  | none => (fs, some "file not found at path")
  | some item =>
    if item.isDir then (fs, some "cannot remove directory at path")
    else
      let fs1 : VirtualFS := { fs with items := eraseKey fp fs.items }
      (cleanupEmptyDirectories fs1 fp, none)

/-- `VirtualFS.MoveFile`. -/
def VirtualFS.MoveFile (fs : VirtualFS) (sourcePath destPath : GoStr) :
    VirtualFS × Option String :=
  let sp := normalize sourcePath
  let dp := normalize destPath
  match lookupKey sp fs.items with
  | none => (fs, some "source file not found")
  | some sourceItem =>
    if sourceItem.isDir then (fs, some "cannot move directory")
    else if (lookupKey dp fs.items).isSome then (fs, some "destination already exists")
    else
      let fs1 := ensureDirectoriesExist fs dp
      let fs2 : VirtualFS :=
        { fs1 with items := setKey dp ⟨goBase dp, dp, sourceItem.url, false⟩ fs1.items }
      let fs3 : VirtualFS := { fs2 with items := eraseKey sp fs2.items }
      (cleanupEmptyDirectories fs3 sp, none)

/-- `VirtualFS.CopyFile`. -/
def VirtualFS.CopyFile (fs : VirtualFS) (sourcePath destPath : GoStr) :
    VirtualFS × Option String :=
  let sp := normalize sourcePath
  let dp := normalize destPath
  match lookupKey sp fs.items with
  | none => (fs, some "source file not found")
  | some sourceItem =>
    if sourceItem.isDir then (fs, some "cannot copy directory")
    else if (lookupKey dp fs.items).isSome then (fs, some "destination already exists")
    else
      let fs1 := ensureDirectoriesExist fs dp
      ({ fs1 with items := setKey dp ⟨goBase dp, dp, sourceItem.url, false⟩ fs1.items },
       none)

/-- `strings.HasPrefix(k, dp + "/") || k == dp`: the membership test used by
all three directory-level operations. -/
def underOrEq (dp k : GoStr) : Bool :=
  isPrefOf (dp ++ str "/") k || decide (k = dp)

/-- `VirtualFS.RemoveDirectory`. -/
def VirtualFS.RemoveDirectory (fs : VirtualFS) (dirPath : GoStr) :
    VirtualFS × Option String :=
  let dp := normalize dirPath
  if dp = str "/" then (fs, some "cannot remove root directory")
  else if !fs.IsDir dp then (fs, some "directory not found")
  else
    ({ items := fs.items.filter (fun e => !underOrEq dp e.1),
       dirs := fs.dirs.filter (fun d => !underOrEq dp d) }, none)

/-- `VirtualFS.MoveDirectory`. -/
def VirtualFS.MoveDirectory (fs : VirtualFS) (sourcePath destPath : GoStr) :
    VirtualFS × Option String :=
  let sp := normalize sourcePath
  let dp := normalize destPath
  if sp = str "/" then (fs, some "cannot move root directory")
  else if !fs.IsDir sp then (fs, some "source directory not found")
  else if fs.IsDir dp || (lookupKey dp fs.items).isSome then
    (fs, some "destination already exists")
  else
    let fs1 := ensureDirectoriesExist fs dp
    let moved := fs1.items.filter (fun e => underOrEq sp e.1)
    let newItems := moved.map (fun e =>
      let np := dp ++ trimPref sp e.1
      (np, VirtualItem.mk (goBase np) np e.2.url e.2.isDir))
    let afterDel := fs1.items.filter (fun e => !underOrEq sp e.1)
    let items2 := newItems.foldl (fun acc e => setKey e.1 e.2 acc) afterDel
    let movedDirs := fs1.dirs.filter (fun d => underOrEq sp d)
    let dirs2 := movedDirs.foldl
      (fun acc d => removeDir d (addDir (dp ++ trimPref sp d) acc)) fs1.dirs
    (cleanupEmptyDirectories { items := items2, dirs := dirs2 } sp, none)

/-- `VirtualFS.CopyDirectory`.  Note: unlike `RemoveDirectory` and
`MoveDirectory`, the Go code has no root check on the source. -/
def VirtualFS.CopyDirectory (fs : VirtualFS) (sourcePath destPath : GoStr) :
    VirtualFS × Option String :=
  let sp := normalize sourcePath
  let dp := normalize destPath
  if !fs.IsDir sp then (fs, some "source directory not found")
  else if fs.IsDir dp || (lookupKey dp fs.items).isSome then
    (fs, some "destination already exists")
  else
    let fs1 := ensureDirectoriesExist fs dp
    let copied := fs1.items.filter (fun e => underOrEq sp e.1)
    let newItems := copied.map (fun e =>
      let np := dp ++ trimPref sp e.1
      (np, VirtualItem.mk (goBase np) np e.2.url e.2.isDir))
    let items2 := newItems.foldl (fun acc e => setKey e.1 e.2 acc) fs1.items
    let copiedDirs := fs1.dirs.filter (fun d => underOrEq sp d)
    let dirs2 := copiedDirs.foldl
      (fun acc d => addDir (dp ++ trimPref sp d) acc) fs1.dirs
    ({ items := items2, dirs := dirs2 }, none)

/-- Go `strings.ToLower` restricted to ASCII (the comparison key of
`ListDir`'s sort). -/
def toLowerStr (s : GoStr) : GoStr := s.map Char.toLower

/-- Bytewise `≤` on Go strings (`!(b < a)` for the sort's `less`). -/
def lexLe : GoStr → GoStr → Bool
  | [], _ => true
  | _ :: _, [] => false
  | a :: as, b :: bs => if a = b then lexLe as bs else decide (a < b)

/-- The total preorder realised by `ListDir`'s `sort.Slice` comparator:
directories strictly before files, and within a kind case-insensitive
alphabetical order of `Name`. -/
def itemLe (x y : VirtualItem) : Bool :=
  if x.isDir ≠ y.isDir then x.isDir
  else lexLe (toLowerStr x.name) (toLowerStr y.name)

/-- `VirtualFS.ListDir`. -/
def VirtualFS.ListDir (fs : VirtualFS) (dirPath : GoStr) : List VirtualItem :=
  if !fs.IsDir dirPath then []
  else
    let dp0 := normalize dirPath
    let dp := if dp0 = str "/" then dp0 else trimOneTrailSlash dp0
    let children := (fs.items.filter (fun e => decide (goDir e.1 = dp))).map (·.2)
    children.mergeSort itemLe

/-! ## The WebDAV protocol handler (internal/handlers/webdav.go)

HTTP headers are modelled as Go's `Header.Get` delivers them: a `GoStr` that
is `[]` when the header is absent or empty (Go cannot distinguish the two).
Remote-metadata resolution (`getFileMetadata`) performs store reads and an
outbound HEAD request; it only fills optional property fields of a response
and never affects which responses exist or any status code, so those fields
are not modelled. -/

/-- The fields of a `webdav.Response` that are computed from the VFS alone. -/
structure DavResponse where
  href : GoStr
  displayName : GoStr
  isCollection : Bool
deriving Repr, DecidableEq

/-- `WebDAVHandler.createResponse`. -/
def createResponse (fs : VirtualFS) (requestPath : GoStr) : Option DavResponse :=
  let itemOpt := fs.GetItem requestPath
  if !itemOpt.isSome && !fs.IsDir requestPath then none
  else
    let href :=
      if fs.IsDir requestPath && !(requestPath.getLast? = some '/')
          && requestPath ≠ str "/" then
        requestPath ++ str "/"
      else requestPath
    match itemOpt with
    | some item =>
      if !item.isDir then some ⟨href, item.name, false⟩
      else
        let dn := goBase requestPath
        some ⟨href, if dn = str "/" ∨ dn = str "." then str "Root" else dn, true⟩
    | none =>
      let dn := goBase requestPath
      some ⟨href, if dn = str "/" ∨ dn = str "." then str "Root" else dn, true⟩

/-- `WebDAVHandler.handlePropFind`: the HTTP status and the list of
`response` elements of the multistatus body. -/
def handlePropFind (fs : VirtualFS) (requestPath depthHeader : GoStr) :
    Nat × List DavResponse :=
  let np := normalize requestPath
  if !fs.Exists np then (404, [])
  else
    let depth := if depthHeader = [] then str "1" else depthHeader
    let self := (createResponse fs np).toList
    let responses :=
      if depth ≠ str "0" && fs.IsDir np then
        self ++ (fs.ListDir np).filterMap (fun child => createResponse fs child.path)
      else self
    (207, responses)

/-- How `handleGetHead` disposes of a request. -/
inductive GetHeadResult where
  | notFound
  | badRequest
  | redirect (url : GoStr)
  | proxy (url : GoStr)
deriving Repr, DecidableEq

/-- `WebDAVHandler.handleGetHead` (`notFound` = 404, `badRequest` = 400,
`redirect` = 302 to the item's url, `proxy` = stream the item's url). -/
def handleGetHead (fs : VirtualFS) (useRedirect : Bool) (requestPath : GoStr) :
    GetHeadResult :=
  let np := normalize requestPath
  match fs.GetItem np with
  | none => .notFound
  | some item =>
    if item.isDir then .badRequest
    else if useRedirect then .redirect item.url
    else .proxy item.url

/-- First split of `strings.SplitN(p, "/", n)`: the part before the first
`'/'` and the rest, or `none` when `p` has no slash. -/
def splitOnceSlash : GoStr → Option (GoStr × GoStr)
  | [] => none
  | c :: cs =>
    if c = '/' then some ([], cs)
    else (splitOnceSlash cs).map (fun q => (c :: q.1, q.2))

/-- `WebDAVHandler.parseDestinationPath` (its Go `error` result is always
nil). -/
def parseDestinationPath (destination : GoStr) : GoStr :=
  if isPrefOf (str "http://") destination || isPrefOf (str "https://") destination then
    match splitOnceSlash destination with
    | none => str "/"
    | some (_, r1) =>
      match splitOnceSlash r1 with
      | none => str "/"
      | some (_, r2) =>
        match splitOnceSlash r2 with
        | none => str "/"
        | some (_, r3) => '/' :: r3
  else destination

/-- `WebDAVHandler.handleMove`: HTTP status and the VFS state after the
request. -/
def handleMove (fs : VirtualFS)
    (requestPath destinationHeader overwriteHeader : GoStr) : Nat × VirtualFS :=
  let ns := normalize requestPath
  if destinationHeader = [] then (400, fs)
  else
    let nd := normalize (parseDestinationPath destinationHeader)
    if !fs.Exists ns then (404, fs)
    else
      let ow := if overwriteHeader = [] then str "T" else overwriteHeader
      let destEx := fs.Exists nd
      if destEx && ow = str "F" then (412, fs)
      else
        let step1 : VirtualFS × Option String :=
          if destEx && ow = str "T" then
            (if fs.IsDir nd then fs.RemoveDirectory nd else fs.RemoveFile nd)
          else (fs, none)
        match step1 with
        | (fs1, some _) => (500, fs1)
        | (fs1, none) =>
          match (if fs1.IsDir ns then fs1.MoveDirectory ns nd else fs1.MoveFile ns nd) with
          | (fs2, some _) => (500, fs2)
          | (fs2, none) => if destEx then (204, fs2) else (201, fs2)

/-! ## Operation sequences and claim-facing predicates -/

/-- A file-level mutation, for stating properties over operation
sequences. -/
inductive FsOp where
  | add (p u : GoStr)
  | remove (p : GoStr)
deriving Repr, DecidableEq

/-- Run a sequence of `AddFile`/`RemoveFile` calls from `fs`; `some` of the
final state when every call succeeds, `none` as soon as one fails. -/
def runOps : VirtualFS → List FsOp → Option VirtualFS
  | fs, [] => some fs
  | fs, op :: ops =>
    match (match op with
           | .add p u => fs.AddFile p u
           | .remove p => fs.RemoveFile p) with
    | (fs', none) => runOps fs' ops
    | (_, some _) => none

/-- The chain `path.Dir(p), path.Dir(path.Dir(p)), …` cut off at `"/"`/`"."`
(fuelled; `p.length` dominates the chain length on every canonical path). -/
def ancChain : Nat → GoStr → List GoStr
  | 0, _ => []
  | n + 1, p =>
    if p = str "/" ∨ p = str "." then []
    else goDir p :: ancChain n (goDir p)

/-- The proper ancestor directories of a path, root included. -/
def strictAncestors (p : GoStr) : List GoStr := ancChain p.length p

/-- Membership of a Go string in a list of Go strings. -/
def memStr (p : GoStr) : List GoStr → Bool
  | [] => false
  | q :: rest => if q = p then true else memStr p rest

/-- One step of the live-file fold: an add records the canonical path, a
remove deletes it. -/
def liveStep (acc : List GoStr) : FsOp → List GoStr
  | .add p _ => normalize p :: acc
  | .remove p => acc.filter (fun q => !decide (q = normalize p))

/-- The canonical paths of the files added by `ops` and not subsequently
removed. -/
def liveFiles (ops : List FsOp) : List GoStr :=
  ops.foldl liveStep []

/-- The right-hand side of the claim about `Exists` after an operation
sequence: `p` is a live file's path, a proper ancestor directory of a live
file's path, or the root. -/
def c1RHS (ops : List FsOp) (p : GoStr) : Bool :=
  memStr p (liveFiles ops)
  || (liveFiles ops).any (fun q => memStr p (strictAncestors q))
  || decide (p = str "/")

/-- The claim as stated: after every successful `AddFile`/`RemoveFile`
sequence from the empty filesystem, `Exists(p)` holds iff `p` is a live
file's path, a proper ancestor of one, or `"/"`. -/
def ClaimExistsIff : Prop :=
  ∀ ops fs', runOps initialVFS ops = some fs' →
    ∀ p, fs'.Exists p = c1RHS ops p

/-- `AddFile` would place the new file strictly below an existing file:
some proper ancestor of the canonical path currently holds a non-directory
item.  (The Go code does not check for this and silently overwrites that
file's item with a directory item.) -/
def addClobbers (fs : VirtualFS) (p : GoStr) : Bool :=
  (strictAncestors (normalize p)).any (fun d =>
    match lookupKey d fs.items with
    | some it => !it.isDir
    | none => false)

/-- `runOps` restricted to sequences in which no `AddFile` lands strictly
below an existing file (the amendment forced by the clobbering behaviour). -/
def runOpsSafe : VirtualFS → List FsOp → Option VirtualFS
  | fs, [] => some fs
  | fs, op :: ops =>
    match op with
    | .add p u =>
      if addClobbers fs p then none
      else match fs.AddFile p u with
        | (fs', none) => runOpsSafe fs' ops
        | (_, some _) => none
    | .remove p =>
      match fs.RemoveFile p with
      | (fs', none) => runOpsSafe fs' ops
      | (_, some _) => none

/-- Every stored item records its own key as its `Path` (true of every state
the Go code constructs; `handlePropFind` relies on it when it looks children
up by `child.Path`). -/
abbrev PathsConsistent (fs : VirtualFS) : Prop :=
  ∀ e ∈ fs.items, e.2.path = e.1

/-- Every key of the filesystem is canonical (true of every state the Go
code constructs, since every mutation canonicalises before writing). -/
abbrev CanonicalKeys (fs : VirtualFS) : Prop :=
  (∀ e ∈ fs.items, normalize e.1 = e.1) ∧ ∀ d ∈ fs.dirs, normalize d = d

/-- A path element as produced by canonicalisation: nonempty, not a dot
element, and slash-free. -/
def validSeg (s : GoStr) : Prop :=
  s ≠ [] ∧ s ≠ ['.'] ∧ s ≠ ['.', '.'] ∧ '/' ∉ s

/-- All elements of a segment list are valid. -/
def validSegs (l : List GoStr) : Prop := ∀ s ∈ l, validSeg s

/-- The segment decomposition of `normalize p` (so that
`normalize p = joinSegs (canonSegs p)`, proved below). -/
def canonSegs (p : GoStr) : List GoStr :=
  cleanSegs true (splitSlash ('/' :: trimLeadSlash p))

/-- `liveStep` at the segment level. -/
def segsLiveStep (acc : List (List GoStr)) : FsOp → List (List GoStr)
  | .add p _ => canonSegs p :: acc
  | .remove p => acc.filter (fun m => !decide (m = canonSegs p))

/-- `joinSegs` without its empty case: `foldr` of `/`-prepended segments. -/
def joinAux (segs : List GoStr) : GoStr :=
  segs.foldr (fun s acc => '/' :: (s ++ acc)) []

/-- The proper prefixes of a list, longest first. -/
def ppfx (l : List GoStr) : List (List GoStr) :=
  (List.range l.length).reverse.map (fun k => l.take k)

/-- Well-formedness of a live-file list: every file is a nonempty list of
valid segments, and no live file is a prefix of another. -/
def LOK (L : List (List GoStr)) : Prop :=
  (∀ l ∈ L, l ≠ [] ∧ validSegs l) ∧ ∀ l ∈ L, ∀ l' ∈ L, l <+: l' → l = l'

/-- Pointwise characterization of a VFS state by a live-file list `F` and a
directory set `D` (both in segment space): `items` answers a file item
(own base name and path, some url) exactly on the spellings of `F`, a
directory item (empty url) exactly on the spellings of `D`, and `none`
elsewhere; `dirs` holds exactly the root and the spellings of `D`; and
every stored entry is visible to lookup (no shadowed duplicates). -/
def Chr (fs : VirtualFS) (F : List (List GoStr)) (D : List GoStr → Prop) :
    Prop :=
  (∀ k, (∃ l ∈ F, k = joinSegs l) →
      ∃ u, lookupKey k fs.items = some ⟨goBase k, k, u, false⟩)
  ∧ (∀ k, (¬ ∃ l ∈ F, k = joinSegs l) → (∃ d, D d ∧ k = joinSegs d) →
      lookupKey k fs.items = some ⟨goBase k, k, [], true⟩)
  ∧ (∀ k, (¬ ∃ l ∈ F, k = joinSegs l) → (¬ ∃ d, D d ∧ k = joinSegs d) →
      lookupKey k fs.items = none)
  ∧ (∀ k, hasDir fs.dirs k = true ↔ (k = str "/" ∨ ∃ d, D d ∧ k = joinSegs d))
  ∧ (∀ e ∈ fs.items, lookupKey e.1 fs.items = some e.2)

/-- The directory set a live-file list induces: the nonempty proper
prefixes of its members. -/
def dirKeySet (L : List (List GoStr)) (d : List GoStr) : Prop :=
  d ≠ [] ∧ ∃ l ∈ L, d <+: l ∧ d ≠ l

/-- The state invariant tying a `VirtualFS` to its live-file list. -/
def Inv (fs : VirtualFS) (L : List (List GoStr)) : Prop :=
  Chr fs L (dirKeySet L)

/-! ### Concrete fixture states used by counterexamples and witnesses -/

/-- One file `/docs/a.txt`. -/
def fsOneDocs : VirtualFS := (initialVFS.AddFile (str "/docs/a.txt") (str "u")).1

/-- One file `/a.txt` directly under the root. -/
def fsRootFile : VirtualFS := (initialVFS.AddFile (str "/a.txt") (str "u")).1

/-- One file `/a` directly under the root. -/
def fsSlashA : VirtualFS := (initialVFS.AddFile (str "/a") (str "u")).1

/-- Two files `/d/f.txt`, `/d/g.txt` in one directory. -/
def fsTwoUnderD : VirtualFS :=
  ((initialVFS.AddFile (str "/d/f.txt") (str "u1")).1.AddFile
    (str "/d/g.txt") (str "u2")).1

/-- Two root-level files `/s.txt` and `/b.txt`. -/
def fsMoveW : VirtualFS :=
  ((initialVFS.AddFile (str "/s.txt") (str "u1")).1.AddFile
    (str "/b.txt") (str "u2")).1

/-- The clobbering operation sequence: add `/a`, add `/a/b`, remove `/a/b`.
All three calls succeed, and afterwards `/a` — added and never removed —
no longer exists. -/
def clobberOps : List FsOp :=
  [.add (str "/a") (str "u1"), .add (str "/a/b") (str "u2"),
   .remove (str "/a/b")]

/-! ## Theorems

First, sanity checks of the path helpers against Go's documented behaviour. -/

example : goClean (str "a//c/b/..") = str "a/c" := by decide
example : goClean (str "/../a/b/../././/c") = str "/a/c" := by decide
example : goClean (str "") = str "." := by decide
example : goClean (str "a/../..") = str ".." := by decide
example : goClean (str "/..") = str "/" := by decide
example : goDir (str "/a/b") = str "/a" := by decide
example : goDir (str "/a") = str "/" := by decide
example : goDir (str "/") = str "/" := by decide
example : goDir (str "a") = str "." := by decide
example : goBase (str "/a/b") = str "b" := by decide
example : goBase (str "/a/b/") = str "b" := by decide
example : goBase (str "/") = str "/" := by decide
example : normalize (str "docs//x/../a.txt/") = str "/docs/a.txt" := by decide
example : normalize (str "/") = str "/" := by decide
example : parseDestinationPath (str "http://host:8080/x/y.txt") = str "/x/y.txt" := by decide
example : parseDestinationPath (str "/x/y.txt") = str "/x/y.txt" := by decide

/-! ### Elementary facts about the map model -/

theorem lookupKey_setKey_self (k : GoStr) (v : VirtualItem)
    (l : List (GoStr × VirtualItem)) : lookupKey k (setKey k v l) = some v := by
  simp [setKey, lookupKey]

theorem lookupKey_eraseKey (k q : GoStr) (l : List (GoStr × VirtualItem))
    (h : q ≠ k) : lookupKey q (eraseKey k l) = lookupKey q l := by
  induction l with
  | nil => rfl
  | cons e rest ih =>
    by_cases he : e.1 = k
    · have hne : ¬ e.1 = q := by rw [he]; exact fun hc => h hc.symm
      simp only [eraseKey, lookupKey, if_pos he, if_neg hne, ih]
    · by_cases hq : e.1 = q
      · simp only [eraseKey, lookupKey, if_neg he, if_pos hq]
      · simp only [eraseKey, lookupKey, if_neg he, if_neg hq, ih]

theorem lookupKey_setKey_ne (k q : GoStr) (v : VirtualItem)
    (l : List (GoStr × VirtualItem)) (h : q ≠ k) :
    lookupKey q (setKey k v l) = lookupKey q l := by
  simp only [setKey, lookupKey]
  rw [if_neg (fun hc => h hc.symm)]
  exact lookupKey_eraseKey k q l h

/-! ### Claim C2 — root rejection by the directory operations -/

/-- C2, counterexample.  The claim states that `CopyDirectory(p, d)` returns
an error when `p = "/"` and leaves the state unchanged; in the code the root
check is present in `RemoveDirectory` and `MoveDirectory` but absent from
`CopyDirectory`: `CopyDirectory("/", "/x")` on the empty filesystem returns
no error and mutates the state (it creates the directory `/x`). -/
theorem copyDirectory_accepts_root :
    (initialVFS.CopyDirectory (str "/") (str "/x")).2 = none
    ∧ (initialVFS.CopyDirectory (str "/") (str "/x")).1 ≠ initialVFS
    ∧ ((initialVFS.CopyDirectory (str "/") (str "/x")).1.Exists (str "/x")) = true := by
  decide

/-- C2, amended: `RemoveDirectory(p)` and `MoveDirectory(p, d)` return an
error when `p` is the root path `"/"` and leave the filesystem unchanged;
`CopyDirectory` has no such root check. -/
theorem removeDirectory_moveDirectory_reject_root (fs : VirtualFS) (d : GoStr) :
    fs.RemoveDirectory (str "/") = (fs, some "cannot remove root directory")
    ∧ fs.MoveDirectory (str "/") d = (fs, some "cannot move root directory") :=
  ⟨rfl, rfl⟩

/-! ### Claim C3 — the MoveDirectory scenario -/

set_option maxHeartbeats 2000000 in
/-- C3: starting from the empty filesystem, adding exactly
`/docs/a.txt ↦ u1` and `/docs/b/c.txt ↦ u2` succeeds, and
`MoveDirectory("/docs", "/archive")` succeeds; afterwards
`/archive/a.txt` and `/archive/b/c.txt` exist, `/docs`, `/docs/a.txt` and
`/docs/b/c.txt` do not, and each moved file keeps its original url. -/
theorem moveDirectory_docs_to_archive (u1 u2 : GoStr) :
    (initialVFS.AddFile (str "/docs/a.txt") u1).2 = none
    ∧ ((initialVFS.AddFile (str "/docs/a.txt") u1).1.AddFile
        (str "/docs/b/c.txt") u2).2 = none
    ∧ (((initialVFS.AddFile (str "/docs/a.txt") u1).1.AddFile
        (str "/docs/b/c.txt") u2).1.MoveDirectory
        (str "/docs") (str "/archive")).2 = none
    ∧ ((((initialVFS.AddFile (str "/docs/a.txt") u1).1.AddFile
        (str "/docs/b/c.txt") u2).1.MoveDirectory
        (str "/docs") (str "/archive")).1.Exists (str "/archive/a.txt")) = true
    ∧ ((((initialVFS.AddFile (str "/docs/a.txt") u1).1.AddFile
        (str "/docs/b/c.txt") u2).1.MoveDirectory
        (str "/docs") (str "/archive")).1.Exists (str "/archive/b/c.txt")) = true
    ∧ ((((initialVFS.AddFile (str "/docs/a.txt") u1).1.AddFile
        (str "/docs/b/c.txt") u2).1.MoveDirectory
        (str "/docs") (str "/archive")).1.Exists (str "/docs")) = false
    ∧ ((((initialVFS.AddFile (str "/docs/a.txt") u1).1.AddFile
        (str "/docs/b/c.txt") u2).1.MoveDirectory
        (str "/docs") (str "/archive")).1.Exists (str "/docs/a.txt")) = false
    ∧ ((((initialVFS.AddFile (str "/docs/a.txt") u1).1.AddFile
        (str "/docs/b/c.txt") u2).1.MoveDirectory
        (str "/docs") (str "/archive")).1.Exists (str "/docs/b/c.txt")) = false
    ∧ (((((initialVFS.AddFile (str "/docs/a.txt") u1).1.AddFile
        (str "/docs/b/c.txt") u2).1.MoveDirectory
        (str "/docs") (str "/archive")).1.GetItem
        (str "/archive/a.txt")).map VirtualItem.url) = some u1
    ∧ (((((initialVFS.AddFile (str "/docs/a.txt") u1).1.AddFile
        (str "/docs/b/c.txt") u2).1.MoveDirectory
        (str "/docs") (str "/archive")).1.GetItem
        (str "/archive/b/c.txt")).map VirtualItem.url) = some u2 :=
  ⟨rfl, rfl, rfl, rfl, rfl, rfl, rfl, rfl, rfl, rfl⟩

/-! ### Claim C4 — MoveFile / CopyFile preconditions -/

/-- C4, counterexample.  The claim states that `MoveFile`/`CopyFile` return
an error whenever the destination names any existing node including the root
`"/"`; in the code the destination check is `vfs.items[destPath] != nil` and
the root is a directory without an item, so moving or copying onto `"/"`
succeeds (placing a file item at the root path). -/
theorem moveFile_copyFile_accept_root_destination :
    fsRootFile.Exists (str "/") = true
    ∧ (fsRootFile.MoveFile (str "/a.txt") (str "/")).2 = none
    ∧ (fsRootFile.CopyFile (str "/a.txt") (str "/")).2 = none := by decide

/-- C4, amended: `MoveFile(src, dst)` and `CopyFile(src, dst)` succeed iff
the canonical source path holds a non-directory item and the canonical
destination path holds no item.  (A destination that exists only in the
directory set — i.e. the root — is not rejected.) -/
theorem moveFile_copyFile_preconditions (fs : VirtualFS) (src dst : GoStr) :
    ((fs.MoveFile src dst).2 = none ↔
      ((∃ it, lookupKey (normalize src) fs.items = some it ∧ it.isDir = false)
        ∧ lookupKey (normalize dst) fs.items = none))
    ∧ ((fs.CopyFile src dst).2 = none ↔
      ((∃ it, lookupKey (normalize src) fs.items = some it ∧ it.isDir = false)
        ∧ lookupKey (normalize dst) fs.items = none)) := by
  constructor
  · unfold VirtualFS.MoveFile
    cases h : lookupKey (normalize src) fs.items with
    | none => simp [h]
    | some it =>
      by_cases hd : it.isDir
      · simp [h, hd]
      · cases h2 : lookupKey (normalize dst) fs.items with
        | none => simp [h, hd, h2]
        | some it2 => simp [h, hd, h2]
  · unfold VirtualFS.CopyFile
    cases h : lookupKey (normalize src) fs.items with
    | none => simp [h]
    | some it =>
      by_cases hd : it.isDir
      · simp [h, hd]
      · cases h2 : lookupKey (normalize dst) fs.items with
        | none => simp [h, hd, h2]
        | some it2 => simp [h, hd, h2]

/-! ### Claim C10 — UpdateFile frame property -/

/-- C10, counterexample.  The claim quantifies over every path `p` and
asserts that a successful `UpdateFile(p, u)` changes no item at a path other
than `p`; the code canonicalises first, so `UpdateFile("//a", v)` succeeds
and changes the item at `/a` ≠ `//a`. -/
theorem updateFile_changes_item_at_canonical_path :
    (fsSlashA.UpdateFile (str "//a") (str "v")).2 = none
    ∧ str "/a" ≠ str "//a"
    ∧ lookupKey (str "/a") (fsSlashA.UpdateFile (str "//a") (str "v")).1.items
      ≠ lookupKey (str "/a") fsSlashA.items := by decide

/-- C10, amended: a successful `UpdateFile(p, u)` changes only the URL field
of the item stored at the canonical path of `p`: the set of item keys, the
directory set, every item at another key, and the Name/Path/IsDir fields of
the updated item are unchanged; a failed `UpdateFile` leaves the state
entirely unchanged. -/
theorem updateFile_frame (fs : VirtualFS) (p u : GoStr) :
    (∀ fs', fs.UpdateFile p u = (fs', none) →
      fs'.dirs = fs.dirs
      ∧ (∀ q, (lookupKey q fs'.items).isSome = (lookupKey q fs.items).isSome)
      ∧ (∀ q, q ≠ normalize p → lookupKey q fs'.items = lookupKey q fs.items)
      ∧ (∀ it it', lookupKey (normalize p) fs.items = some it →
          lookupKey (normalize p) fs'.items = some it' →
          it'.name = it.name ∧ it'.path = it.path ∧ it'.isDir = it.isDir
          ∧ it'.url = u))
    ∧ (∀ fs' e, fs.UpdateFile p u = (fs', some e) → fs' = fs) := by
  constructor
  · intro fs' hok
    simp only [VirtualFS.UpdateFile] at hok
    cases h : lookupKey (normalize p) fs.items with
    | none => rw [h] at hok; simp at hok
    | some it =>
      rw [h] at hok
      dsimp only at hok
      by_cases hd : it.isDir
      · simp [hd] at hok
      · rw [if_neg hd] at hok
        have hfs' : ({ fs with
            items := setKey (normalize p) { it with url := u } fs.items } : VirtualFS)
            = fs' := congrArg Prod.fst hok
        subst hfs'
        refine ⟨rfl, fun q => ?_, fun q hq => lookupKey_setKey_ne _ _ _ _ hq, ?_⟩
        · by_cases hq : q = normalize p
          · subst hq
            rw [lookupKey_setKey_self, h]
            rfl
          · rw [lookupKey_setKey_ne _ _ _ _ hq]
        · intro it1 it2 h1 h2
          rw [lookupKey_setKey_self] at h2
          cases h1
          cases h2
          exact ⟨rfl, rfl, rfl, rfl⟩
  · intro fs' e hn
    simp only [VirtualFS.UpdateFile] at hn
    cases h : lookupKey (normalize p) fs.items with
    | none =>
      rw [h] at hn
      exact (congrArg Prod.fst hn).symm
    | some it =>
      rw [h] at hn
      dsimp only at hn
      by_cases hd : it.isDir
      · simp only [hd, if_true] at hn
        exact (congrArg Prod.fst hn).symm
      · simp [hd] at hn

/-! ### Claim C7 — MOVE with `Overwrite: F` -/

/-- C7, counterexample.  The claim asserts a 412 for every MOVE whose
`Overwrite` header is `F` and whose parsed destination exists; the code
checks the source first, so with an absent source such a request yields 404,
not 412. -/
theorem move_overwriteF_with_absent_source_is_404 :
    fsRootFile.Exists (normalize (parseDestinationPath (str "/a.txt"))) = true
    ∧ handleMove fsRootFile (str "/zzz") (str "/a.txt") (str "F")
      = (404, fsRootFile) := by decide

/-- C7, amended: a MOVE whose source path exists, whose `Overwrite` header
is `F`, and whose parsed destination path names an existing node responds
412 and performs no VFS mutation (the state is returned unchanged); an
absent `Overwrite` header is treated exactly as `"T"`. -/
theorem handleMove_overwrite_semantics (fs : VirtualFS) (p dest : GoStr)
    (hne : dest ≠ [])
    (hsrc : fs.Exists (normalize p) = true)
    (hdst : fs.Exists (normalize (parseDestinationPath dest)) = true) :
    handleMove fs p dest (str "F") = (412, fs)
    ∧ ∀ (fs' : VirtualFS) (q d : GoStr),
        handleMove fs' q d [] = handleMove fs' q d (str "T") := by
  constructor
  · simp [handleMove, hne, hsrc, hdst, str]
  · intro fs' q d
    rfl

/-- Witness for `handleMove_overwrite_semantics` at a concrete state with
both `/s.txt` and `/b.txt` present. -/
theorem handleMove_overwrite_semantics_witness :
    handleMove fsMoveW (str "/s.txt") (str "/b.txt") (str "F") = (412, fsMoveW) :=
  (handleMove_overwrite_semantics fsMoveW (str "/s.txt") (str "/b.txt")
    (by decide) (by decide) (by decide)).1

/-! ### Claim C8 — GET/HEAD dispatch -/

/-- C8, counterexample.  The claim asserts 400 for every directory path
including the root; the code answers GET/HEAD by `GetItem`, the root has no
item, so GET/HEAD `"/"` — an existing directory — yields 404, not 400. -/
theorem getHead_root_directory_is_404 :
    initialVFS.Exists (str "/") = true
    ∧ initialVFS.IsDir (str "/") = true
    ∧ handleGetHead initialVFS false (str "/") = .notFound
    ∧ handleGetHead initialVFS true (str "/") = .notFound := by decide

/-- C8, amended: GET/HEAD respond 404 when the canonical path holds no item
(in particular for the root and for any path absent from the VFS), 400 when
the item there is a directory, and only for a file item deliver content —
a 302 redirect to its url in redirect mode, a proxied stream of its url
otherwise. -/
theorem handleGetHead_dispatch (fs : VirtualFS) (r : Bool) (p : GoStr) :
    (fs.GetItem (normalize p) = none → handleGetHead fs r p = .notFound)
    ∧ (∀ it, fs.GetItem (normalize p) = some it → it.isDir = true →
        handleGetHead fs r p = .badRequest)
    ∧ (∀ it, fs.GetItem (normalize p) = some it → it.isDir = false →
        handleGetHead fs r p
          = (if r then .redirect it.url else .proxy it.url)) := by
  refine ⟨fun h => ?_, fun it h hd => ?_, fun it h hd => ?_⟩
  · simp [handleGetHead, h]
  · simp [handleGetHead, h, hd]
  · simp [handleGetHead, h, hd]

/-- Witness for `handleGetHead_dispatch`: GET of the directory `/d` is a
Bad Request. -/
theorem handleGetHead_dispatch_witness :
    handleGetHead fsTwoUnderD false (str "/d") = .badRequest :=
  (handleGetHead_dispatch fsTwoUnderD false (str "/d")).2.1
    ⟨str "d", str "/d", [], true⟩ (by decide) rfl

/-! ### The segment view of canonical paths

`normalize` always produces `joinSegs l` for a list `l` of valid segments,
and on such paths `goDir` peels the last segment.  These lemmas justify all
segment-level reasoning about the VFS. -/

theorem splitSlash_ne_nil (p : GoStr) : splitSlash p ≠ [] := by
  cases p with
  | nil => simp [splitSlash]
  | cons c cs =>
    simp only [splitSlash]
    cases h : splitSlash cs with
    | nil => simp
    | cons s rest => by_cases hc : c = '/' <;> simp [hc]

theorem splitSlash_cons (c : Char) (cs t : GoStr) (rest : List GoStr)
    (h : splitSlash cs = t :: rest) :
    splitSlash (c :: cs)
      = if c = '/' then [] :: t :: rest else (c :: t) :: rest := by
  simp only [splitSlash, h]

theorem splitSlash_no_slash (p : GoStr) : ∀ s ∈ splitSlash p, '/' ∉ s := by
  induction p with
  | nil =>
    intro s hs
    simp only [splitSlash, List.mem_singleton] at hs
    subst hs; simp
  | cons c cs ih =>
    intro s hs
    cases h : splitSlash cs with
    | nil => exact absurd h (splitSlash_ne_nil cs)
    | cons t rest =>
      rw [splitSlash_cons c cs t rest h] at hs
      by_cases hc : c = '/'
      · rw [if_pos hc] at hs
        rcases List.mem_cons.mp hs with rfl | hs'
        · simp
        · exact ih s (by rw [h]; exact hs')
      · rw [if_neg hc] at hs
        rcases List.mem_cons.mp hs with rfl | hs'
        · intro hmem
          rcases List.mem_cons.mp hmem with h1 | h2
          · exact hc h1.symm
          · exact ih t (by rw [h]; exact List.mem_cons_self t rest) h2
        · exact ih s (by rw [h]; exact List.mem_cons_of_mem t hs')

theorem splitSlash_of_no_slash (s : GoStr) (h : '/' ∉ s) : splitSlash s = [s] := by
  induction s with
  | nil => rfl
  | cons c cs ih =>
    have hc : c ≠ '/' := fun hc => h (hc ▸ List.mem_cons_self c cs)
    have hcs : '/' ∉ cs := fun hm => h (List.mem_cons_of_mem c hm)
    simp only [splitSlash, ih hcs]
    rw [if_neg hc]

theorem splitSlash_slash_cons (z : GoStr) :
    splitSlash ('/' :: z) = [] :: splitSlash z := by
  simp only [splitSlash]
  cases h : splitSlash z with
  | nil => exact absurd h (splitSlash_ne_nil z)
  | cons t rest => simp

theorem splitSlash_append_slash (s z : GoStr) (h : '/' ∉ s) :
    splitSlash (s ++ '/' :: z) = s :: splitSlash z := by
  induction s with
  | nil => simpa using splitSlash_slash_cons z
  | cons c s' ih =>
    have hc : c ≠ '/' := fun hc => h (hc ▸ List.mem_cons_self c s')
    have hs' : '/' ∉ s' := fun hm => h (List.mem_cons_of_mem c hm)
    cases hz : splitSlash z with
    | nil => exact absurd hz (splitSlash_ne_nil z)
    | cons t rest =>
      have hcons : splitSlash (s' ++ '/' :: z) = s' :: t :: rest := by
        rw [ih hs', hz]
      calc splitSlash ((c :: s') ++ '/' :: z)
          = splitSlash (c :: (s' ++ '/' :: z)) := rfl
        _ = if c = '/' then [] :: s' :: t :: rest
            else (c :: s') :: t :: rest := splitSlash_cons c _ _ _ hcons
        _ = (c :: s') :: t :: rest := if_neg hc

theorem splitSlash_append_trail (x : GoStr) :
    splitSlash (x ++ ['/']) = splitSlash x ++ [[]] := by
  induction x with
  | nil => rfl
  | cons c x' ih =>
    cases h : splitSlash x' with
    | nil => exact absurd h (splitSlash_ne_nil x')
    | cons t rest =>
      have h2 : splitSlash (x' ++ ['/']) = t :: (rest ++ [[]]) := by
        rw [ih, h]; rfl
      calc splitSlash ((c :: x') ++ ['/'])
          = splitSlash (c :: (x' ++ ['/'])) := rfl
        _ = if c = '/' then [] :: t :: (rest ++ [[]])
            else (c :: t) :: (rest ++ [[]]) := splitSlash_cons c _ _ _ h2
        _ = splitSlash (c :: x') ++ [[]] := by
            rw [splitSlash_cons c x' t rest h]
            by_cases hc : c = '/' <;> simp [hc]

theorem cleanOne_valid (r : Bool) (acc : List GoStr) (s : GoStr)
    (h : validSeg s) : cleanOne r acc s = s :: acc := by
  obtain ⟨h1, h2, h3, _⟩ := h
  simp only [cleanOne]
  rw [if_neg (by simp [h1, h2]), if_neg h3]

theorem foldl_cleanOne_valid (r : Bool) (l : List GoStr) (hl : validSegs l) :
    ∀ acc, l.foldl (cleanOne r) acc = l.reverse ++ acc := by
  induction l with
  | nil => intro acc; rfl
  | cons s l' ih =>
    intro acc
    have hs : validSeg s := hl s (List.mem_cons_self s l')
    have hl' : validSegs l' := fun t ht => hl t (List.mem_cons_of_mem s ht)
    rw [List.foldl_cons, cleanOne_valid r acc s hs, ih hl' (s :: acc)]
    simp

theorem foldl_cleanOne_rooted_valid (segs : List GoStr)
    (hs : ∀ s ∈ segs, '/' ∉ s) :
    ∀ acc, validSegs acc → validSegs (segs.foldl (cleanOne true) acc) := by
  induction segs with
  | nil => exact fun acc ha => ha
  | cons s rest ih =>
    intro acc ha
    rw [List.foldl_cons]
    refine ih (fun t ht => hs t (List.mem_cons_of_mem s ht)) _ ?_
    simp only [cleanOne]
    by_cases h1 : s = [] ∨ s = ['.']
    · rw [if_pos h1]; exact ha
    · rw [if_neg h1]
      by_cases h2 : s = ['.', '.']
      · rw [if_pos h2]
        cases acc with
        | nil => simp [validSegs]
        | cons a as =>
          simp only [if_pos rfl]
          exact fun t ht => ha t (List.mem_cons_of_mem a ht)
      · rw [if_neg h2]
        intro t ht
        rcases List.mem_cons.mp ht with rfl | ht'
        · push_neg at h1
          exact ⟨h1.1, h1.2, h2, hs t (List.mem_cons_self t rest)⟩
        · exact ha t ht'

theorem canonSegs_valid (p : GoStr) : validSegs (canonSegs p) := by
  intro s hs
  rw [canonSegs, cleanSegs, List.mem_reverse] at hs
  exact foldl_cleanOne_rooted_valid _
    (splitSlash_no_slash ('/' :: trimLeadSlash p)) [] (by intro t ht; cases ht) s hs

theorem joinSegs_of_ne_nil (l : List GoStr) (h : l ≠ []) :
    joinSegs l = joinAux l := by
  cases l with
  | nil => exact absurd rfl h
  | cons s t => rfl

theorem joinAux_cons (s : GoStr) (l : List GoStr) :
    joinAux (s :: l) = '/' :: (s ++ joinAux l) := rfl

theorem joinAux_append_acc (l : List GoStr) (a : GoStr) :
    l.foldr (fun s acc => '/' :: (s ++ acc)) a = joinAux l ++ a := by
  induction l with
  | nil => rfl
  | cons x xs ih =>
    simp only [List.foldr_cons, ih, joinAux_cons]
    simp

theorem joinSegs_concat (l : List GoStr) (s : GoStr) (h : l ≠ []) :
    joinSegs (l ++ [s]) = joinSegs l ++ '/' :: s := by
  rw [joinSegs_of_ne_nil _ (by simp), joinSegs_of_ne_nil _ h]
  show (l ++ [s]).foldr (fun s acc => '/' :: (s ++ acc)) [] = _
  rw [List.foldr_append, joinAux_append_acc]
  simp [joinAux]

theorem joinSegs_head (l : List GoStr) : (joinSegs l).head? = some '/' := by
  cases l with
  | nil => rfl
  | cons s t => rfl

theorem joinSegs_ne_nil (l : List GoStr) : joinSegs l ≠ [] := by
  intro hc
  have := joinSegs_head l
  rw [hc] at this
  cases this

theorem joinSegs_cons_shape (s : GoStr) (l : List GoStr) :
    joinSegs (s :: l) = '/' :: (s ++ joinAux l) := rfl

theorem joinSegs_ne_root (l : List GoStr) (hv : validSegs l) (h : l ≠ []) :
    joinSegs l ≠ str "/" := by
  cases l with
  | nil => exact absurd rfl h
  | cons s t =>
    rw [joinSegs_cons_shape]
    intro hc
    have : s ++ joinAux t = [] := by
      have := congrArg List.tail hc
      simpa [str] using this
    have hs : s = [] := by
      rcases List.append_eq_nil.mp this with ⟨h1, _⟩
      exact h1
    exact (hv s (List.mem_cons_self s t)).1 hs

theorem joinSegs_ne_dot (l : List GoStr) : joinSegs l ≠ str "." := by
  intro hc
  have := joinSegs_head l
  rw [hc] at this
  cases this

theorem splitSlash_joinSegs (l : List GoStr) (hv : validSegs l) (h : l ≠ []) :
    splitSlash (joinSegs l) = [] :: l := by
  induction l with
  | nil => exact absurd rfl h
  | cons s t ih =>
    have hs : validSeg s := hv s (List.mem_cons_self s t)
    cases t with
    | nil =>
      rw [joinSegs_cons_shape]
      simp only [joinAux, List.foldr_nil, List.append_nil]
      rw [splitSlash_slash_cons, splitSlash_of_no_slash s hs.2.2.2]
    | cons t0 ts =>
      have hv' : validSegs (t0 :: ts) := fun x hx => hv x (List.mem_cons_of_mem s hx)
      have iht := ih hv' (by simp)
      have hx : splitSlash (t0 ++ joinAux ts) = t0 :: ts := by
        rw [joinSegs_cons_shape, splitSlash_slash_cons] at iht
        injection iht
      rw [joinSegs_cons_shape, joinAux_cons, splitSlash_slash_cons,
        splitSlash_append_slash s (t0 ++ joinAux ts) hs.2.2.2, hx]

theorem cleanSegs_root_cons_valid (l : List GoStr) (hv : validSegs l) :
    cleanSegs true ([] :: l) = l := by
  rw [cleanSegs, List.foldl_cons]
  have h0 : cleanOne true [] [] = [] := rfl
  rw [h0, foldl_cleanOne_valid true l hv []]
  simp

theorem goClean_joinSegs (l : List GoStr) (hv : validSegs l) :
    goClean (joinSegs l) = joinSegs l := by
  cases l with
  | nil => decide
  | cons s t =>
    have hne : joinSegs (s :: t) ≠ [] := joinSegs_ne_nil _
    have hhead : (joinSegs (s :: t)).head? = some '/' := joinSegs_head _
    have hclean : cleanSegs true (splitSlash (joinSegs (s :: t))) = s :: t := by
      rw [splitSlash_joinSegs _ hv (by simp)]
      exact cleanSegs_root_cons_valid _ hv
    simp [goClean, hne, hhead, hclean]

theorem normalize_eq_join (p : GoStr) : normalize p = joinSegs (canonSegs p) := by
  unfold normalize canonSegs
  have hne : ('/' :: trimLeadSlash p) ≠ [] := by simp
  have hhead : ('/' :: trimLeadSlash p).head? = some '/' := rfl
  by_cases hres : cleanSegs true (splitSlash ('/' :: trimLeadSlash p)) = []
  · simp [goClean, hne, hhead, hres, joinSegs]
  · simp [goClean, hne, hhead, hres]

theorem normalize_joinSegs (l : List GoStr) (hv : validSegs l) :
    normalize (joinSegs l) = joinSegs l := by
  cases l with
  | nil => decide
  | cons s t =>
    have hshape : joinSegs (s :: t) = '/' :: (s ++ joinAux t) := joinSegs_cons_shape s t
    have htrim : '/' :: trimLeadSlash (joinSegs (s :: t)) = joinSegs (s :: t) := by
      rw [hshape]; rfl
    unfold normalize
    rw [htrim]
    exact goClean_joinSegs _ hv

theorem normalize_normalize (p : GoStr) : normalize (normalize p) = normalize p := by
  rw [normalize_eq_join p]
  exact normalize_joinSegs _ (canonSegs_valid p)

theorem joinSegs_inj {l l' : List GoStr} (hl : validSegs l) (hl' : validSegs l')
    (h : joinSegs l = joinSegs l') : l = l' := by
  cases l with
  | nil =>
    cases l' with
    | nil => rfl
    | cons s t =>
      exfalso
      have h2 := h.symm
      rw [joinSegs_cons_shape] at h2
      have : s ++ joinAux t = [] := by
        have := congrArg List.tail h2
        simpa [joinSegs] using this
      exact (hl' s (List.mem_cons_self s t)).1 (List.append_eq_nil.mp this).1
  | cons s t =>
    cases l' with
    | nil =>
      exfalso
      have h2 := h
      rw [joinSegs_cons_shape] at h2
      have : s ++ joinAux t = [] := by
        have := congrArg List.tail h2
        simpa [joinSegs] using this
      exact (hl s (List.mem_cons_self s t)).1 (List.append_eq_nil.mp this).1
    | cons s' t' =>
      have hsp := congrArg splitSlash h
      rw [splitSlash_joinSegs _ hl (by simp), splitSlash_joinSegs _ hl' (by simp)] at hsp
      injection hsp

theorem takeToLastSlash_cons (c : Char) (cs : GoStr) :
    takeToLastSlash (c :: cs)
      = if takeToLastSlash cs = [] then (if c = '/' then ['/'] else [])
        else c :: takeToLastSlash cs := rfl

theorem takeToLastSlash_of_no_slash (s : GoStr) (h : '/' ∉ s) :
    takeToLastSlash s = [] := by
  induction s with
  | nil => rfl
  | cons c cs ih =>
    have hc : c ≠ '/' := fun hc => h (hc ▸ List.mem_cons_self c cs)
    have hcs : '/' ∉ cs := fun hm => h (List.mem_cons_of_mem c hm)
    rw [takeToLastSlash_cons, ih hcs, if_pos rfl, if_neg hc]

theorem takeToLastSlash_append (x s : GoStr) (h : '/' ∉ s) :
    takeToLastSlash (x ++ '/' :: s) = x ++ ['/'] := by
  induction x with
  | nil =>
    rw [List.nil_append, takeToLastSlash_cons,
      takeToLastSlash_of_no_slash s h, if_pos rfl, if_pos rfl]
    rfl
  | cons c x' ih =>
    have hne : x' ++ ['/'] ≠ [] := by simp
    rw [List.cons_append, takeToLastSlash_cons, ih, if_neg hne]
    simp

theorem cleanSegs_root_cons_valid_trail (l : List GoStr) (hv : validSegs l) :
    cleanSegs true (([] :: l) ++ [[]]) = l := by
  have hinner : List.foldl (cleanOne true) [] ([] :: l) = l.reverse := by
    have h := congrArg List.reverse (cleanSegs_root_cons_valid l hv)
    rwa [cleanSegs, List.reverse_reverse] at h
  rw [cleanSegs, List.foldl_append, hinner]
  have h1 : List.foldl (cleanOne true) l.reverse [[]] = l.reverse := rfl
  rw [h1, List.reverse_reverse]

theorem goDir_joinSegs (l : List GoStr) (s : GoStr)
    (hv : validSegs (l ++ [s])) : goDir (joinSegs (l ++ [s])) = joinSegs l := by
  have hs : validSeg s := hv s (by simp)
  have hvl : validSegs l := fun x hx => hv x (List.mem_append_left _ hx)
  cases l with
  | nil =>
    show goDir (joinSegs [s]) = joinSegs []
    rw [joinSegs_cons_shape]
    unfold goDir
    have : takeToLastSlash ('/' :: (s ++ joinAux [])) = ['/'] := by
      have : ('/' :: (s ++ joinAux [])) = [] ++ '/' :: s := by simp [joinAux]
      rw [this, takeToLastSlash_append [] s hs.2.2.2]
      rfl
    rw [this]
    decide
  | cons l0 ls =>
    have hlen : (l0 :: ls) ≠ [] := by simp
    rw [joinSegs_concat _ s hlen]
    unfold goDir
    rw [takeToLastSlash_append _ s hs.2.2.2]
    have hne : joinSegs (l0 :: ls) ++ ['/'] ≠ [] := by simp
    have hhead : (joinSegs (l0 :: ls) ++ ['/']).head? = some '/' := by
      rw [joinSegs_cons_shape]
      rfl
    have hsplit : splitSlash (joinSegs (l0 :: ls) ++ ['/'])
        = ([] :: (l0 :: ls)) ++ [[]] := by
      rw [splitSlash_append_trail, splitSlash_joinSegs _ hvl hlen]
    have hclean : cleanSegs true (splitSlash (joinSegs (l0 :: ls) ++ ['/']))
        = l0 :: ls := by
      rw [hsplit]
      exact cleanSegs_root_cons_valid_trail _ hvl
    simp [goClean, hne, hhead, hclean]

theorem joinAux_length (l : List GoStr) : l.length ≤ (joinAux l).length := by
  induction l with
  | nil => simp [joinAux]
  | cons s t ih =>
    rw [joinAux_cons]
    simp only [List.length_cons, List.length_append]
    omega

theorem joinSegs_length (l : List GoStr) : l.length ≤ (joinSegs l).length := by
  cases l with
  | nil => simp [joinSegs]
  | cons s t =>
    rw [joinSegs_of_ne_nil _ (by simp)]
    exact joinAux_length _

theorem ppfx_concat (l : List GoStr) (s : GoStr) :
    ppfx (l ++ [s]) = l :: ppfx l := by
  unfold ppfx
  rw [List.length_append, List.length_singleton, List.range_succ,
    List.reverse_append]
  simp only [List.reverse_singleton, List.singleton_append, List.map_cons]
  congr 1
  · exact List.take_left l [s]
  · refine List.map_congr_left fun k hk => ?_
    rw [List.mem_reverse, List.mem_range] at hk
    exact List.take_append_of_le_length (by omega)

theorem mem_ppfx (m l : List GoStr) : m ∈ ppfx l ↔ (m <+: l ∧ m ≠ l) := by
  unfold ppfx
  simp only [List.mem_map, List.mem_reverse, List.mem_range]
  constructor
  · rintro ⟨k, hk, rfl⟩
    refine ⟨List.take_prefix k l, fun hc => ?_⟩
    have := congrArg List.length hc
    rw [List.length_take] at this
    omega
  · rintro ⟨hpre, hne⟩
    refine ⟨m.length, ?_, (List.prefix_iff_eq_take.mp hpre).symm⟩
    have hle := hpre.length_le
    rcases lt_or_eq_of_le hle with hlt | heq
    · exact hlt
    · exact absurd (hpre.eq_of_length heq) hne

theorem ancChain_joinSegs (l : List GoStr) :
    validSegs l → ∀ n, l.length ≤ n →
      ancChain n (joinSegs l) = (ppfx l).map joinSegs := by
  induction l using List.reverseRecOn with
  | nil =>
    intro _ n _
    cases n with
    | zero => rfl
    | succ m => simp [ancChain, ppfx, joinSegs, str]
  | append_singleton l s ih =>
    intro hv n hn
    rw [List.length_append, List.length_singleton] at hn
    cases n with
    | zero => omega
    | succ m =>
      have hvl : validSegs l := fun x hx => hv x (List.mem_append_left _ hx)
      have hne1 : joinSegs (l ++ [s]) ≠ str "/" :=
        joinSegs_ne_root _ hv (by simp)
      have hne2 : joinSegs (l ++ [s]) ≠ str "." := joinSegs_ne_dot _
      rw [ancChain, if_neg (by push_neg; exact ⟨hne1, hne2⟩),
        goDir_joinSegs l s hv, ih hvl m (by omega), ppfx_concat]
      rfl

theorem strictAncestors_joinSegs (l : List GoStr) (hv : validSegs l) :
    strictAncestors (joinSegs l) = (ppfx l).map joinSegs :=
  ancChain_joinSegs l hv _ (joinSegs_length l)

theorem mem_strictAncestors (p : GoStr) (l : List GoStr) (hv : validSegs l) :
    p ∈ strictAncestors (joinSegs l)
      ↔ ∃ m, m <+: l ∧ m ≠ l ∧ p = joinSegs m := by
  rw [strictAncestors_joinSegs l hv]
  simp only [List.mem_map, mem_ppfx]
  constructor
  · rintro ⟨m, ⟨h1, h2⟩, rfl⟩
    exact ⟨m, h1, h2, rfl⟩
  · rintro ⟨m, h1, h2, rfl⟩
    exact ⟨m, ⟨h1, h2⟩, rfl⟩

theorem joinSegs_getLast_ne_slash (l : List GoStr) (hv : validSegs l)
    (h : l ≠ []) : (joinSegs l).getLast? ≠ some '/' := by
  rcases List.eq_nil_or_concat l with rfl | ⟨t, s, rfl⟩
  · exact absurd rfl h
  · rw [List.concat_eq_append]
    have hs : validSeg s := hv s (by simp [List.concat_eq_append])
    rcases List.eq_nil_or_concat s with rfl | ⟨u, c, rfl⟩
    · exact absurd rfl hs.1
    · have hc : c ≠ '/' := by
        intro hc
        exact hs.2.2.2 (by rw [hc] at *; simp [List.concat_eq_append])
      cases t with
      | nil =>
        rw [List.nil_append, joinSegs_cons_shape]
        simp only [joinAux, List.foldr_nil, List.append_nil, List.concat_eq_append]
        intro hcontra
        have : ('/' :: (u ++ [c])).getLast? = some c := by
          rw [show '/' :: (u ++ [c]) = ('/' :: u) ++ [c] by simp,
            List.getLast?_concat]
        rw [this] at hcontra
        exact hc (by injection hcontra)
      | cons t0 ts =>
        rw [joinSegs_concat _ _ (by simp), List.concat_eq_append]
        intro hcontra
        have : (joinSegs (t0 :: ts) ++ '/' :: (u ++ [c])).getLast? = some c := by
          rw [show joinSegs (t0 :: ts) ++ '/' :: (u ++ [c])
              = (joinSegs (t0 :: ts) ++ '/' :: u) ++ [c] by simp,
            List.getLast?_concat]
        rw [this] at hcontra
        exact hc (by injection hcontra)

theorem trimOneTrailSlash_joinSegs (l : List GoStr) (hv : validSegs l)
    (h : l ≠ []) : trimOneTrailSlash (joinSegs l) = joinSegs l := by
  unfold trimOneTrailSlash
  rw [if_neg (joinSegs_getLast_ne_slash l hv h)]

/-! ### Claim C5 — canonicalisation of lookups vs mutations -/

/-- C5, counterexample.  The claim asserts that `Exists`, `IsDir` and
`GetItem` agree on a path and its canonical form; all three look the raw
string up as a map key, so with `/docs/a.txt` present they answer `false` /
`none` for `"/docs/"` but `true` / an item for its canonical form
`"/docs"`. -/
theorem lookups_use_raw_paths :
    fsOneDocs.Exists (str "/docs/") = false
    ∧ fsOneDocs.Exists (normalize (str "/docs/")) = true
    ∧ fsOneDocs.IsDir (str "/docs/") = false
    ∧ fsOneDocs.IsDir (normalize (str "/docs/")) = true
    ∧ fsOneDocs.GetItem (str "/docs/") = none
    ∧ (fsOneDocs.GetItem (normalize (str "/docs/"))).isSome = true := by decide

/-- C5, amended: every VFS **mutation** canonicalises its path arguments
before use — applying it to `p` and to the canonical form of `p` is
indistinguishable — while the read-only lookups `Exists`, `IsDir`, `GetItem`
use the raw string key (see `lookups_use_raw_paths`). -/
theorem mutations_canonicalize (fs : VirtualFS) (p q u : GoStr) :
    fs.AddFile p u = fs.AddFile (normalize p) u
    ∧ fs.UpdateFile p u = fs.UpdateFile (normalize p) u
    ∧ fs.RemoveFile p = fs.RemoveFile (normalize p)
    ∧ fs.MoveFile p q = fs.MoveFile (normalize p) (normalize q)
    ∧ fs.CopyFile p q = fs.CopyFile (normalize p) (normalize q)
    ∧ fs.RemoveDirectory p = fs.RemoveDirectory (normalize p)
    ∧ fs.MoveDirectory p q = fs.MoveDirectory (normalize p) (normalize q)
    ∧ fs.CopyDirectory p q = fs.CopyDirectory (normalize p) (normalize q) := by
  refine ⟨?_, ?_, ?_, ?_, ?_, ?_, ?_, ?_⟩ <;>
    simp only [VirtualFS.AddFile, VirtualFS.UpdateFile, VirtualFS.RemoveFile,
      VirtualFS.MoveFile, VirtualFS.CopyFile, VirtualFS.RemoveDirectory,
      VirtualFS.MoveDirectory, VirtualFS.CopyDirectory, normalize_normalize]

/-! ### Claim C9 — ListDir contents and ordering -/

theorem lookupKey_isSome_mem (k : GoStr) (l : List (GoStr × VirtualItem))
    (h : (lookupKey k l).isSome = true) : ∃ v, (k, v) ∈ l := by
  induction l with
  | nil => cases h
  | cons e rest ih =>
    by_cases he : e.1 = k
    · exact ⟨e.2, by rw [← he]; exact List.mem_cons_self _ _⟩
    · rw [lookupKey, if_neg he] at h
      obtain ⟨v, hv⟩ := ih h
      exact ⟨v, List.mem_cons_of_mem _ hv⟩

theorem mem_lookupKey_isSome (k : GoStr) (v : VirtualItem)
    (l : List (GoStr × VirtualItem)) (h : (k, v) ∈ l) :
    (lookupKey k l).isSome = true := by
  induction l with
  | nil => cases h
  | cons e rest ih =>
    rcases List.mem_cons.mp h with rfl | h'
    · rw [lookupKey, if_pos rfl]; rfl
    · by_cases he : e.1 = k
      · rw [lookupKey, if_pos he]; rfl
      · rw [lookupKey, if_neg he]; exact ih h'

theorem hasDir_mem (l : List GoStr) (k : GoStr) (h : hasDir l k = true) :
    k ∈ l := by
  induction l with
  | nil => cases h
  | cons d rest ih =>
    by_cases hd : d = k
    · exact hd ▸ List.mem_cons_self d rest
    · rw [hasDir, if_neg hd] at h
      exact List.mem_cons_of_mem _ (ih h)

theorem mem_hasDir (l : List GoStr) (k : GoStr) (h : k ∈ l) :
    hasDir l k = true := by
  induction l with
  | nil => cases h
  | cons d rest ih =>
    rcases List.mem_cons.mp h with rfl | h'
    · rw [hasDir, if_pos rfl]
    · by_cases hd : d = k
      · rw [hasDir, if_pos hd]
      · rw [hasDir, if_neg hd]; exact ih h'

theorem canonicalKeys_isDir (fs : VirtualFS) (p : GoStr)
    (hcanon : CanonicalKeys fs) (h : fs.IsDir p = true) : normalize p = p := by
  unfold VirtualFS.IsDir at h
  cases hit : lookupKey p fs.items with
  | some it =>
    obtain ⟨v, hv⟩ := lookupKey_isSome_mem p fs.items (by rw [hit]; rfl)
    exact hcanon.1 (p, v) hv
  | none =>
    rw [hit] at h
    exact hcanon.2 p (hasDir_mem _ _ h)

theorem lexLe_total (a b : GoStr) : (lexLe a b || lexLe b a) = true := by
  induction a generalizing b with
  | nil => simp [lexLe]
  | cons x xs ih =>
    cases b with
    | nil => simp [lexLe]
    | cons y ys =>
      by_cases hxy : x = y
      · subst hxy
        simp only [lexLe, if_pos rfl]
        exact ih ys
      · have hyx : ¬ y = x := fun hc => hxy hc.symm
        simp only [lexLe, if_neg hxy, if_neg hyx]
        rcases lt_or_gt_of_ne hxy with hlt | hgt
        · simp [hlt]
        · simp [hgt]

theorem lexLe_trans (a b c : GoStr) (h1 : lexLe a b = true)
    (h2 : lexLe b c = true) : lexLe a c = true := by
  induction a generalizing b c with
  | nil => simp [lexLe]
  | cons x xs ih =>
    cases b with
    | nil => simp [lexLe] at h1
    | cons y ys =>
      cases c with
      | nil => simp [lexLe] at h2
      | cons z zs =>
        by_cases hxy : x = y
        · subst hxy
          rw [lexLe, if_pos rfl] at h1
          by_cases hyz : x = z
          · subst hyz
            rw [lexLe, if_pos rfl] at h2 ⊢
            exact ih ys zs h1 h2
          · rw [lexLe, if_neg hyz] at h2 ⊢
            exact h2
        · rw [lexLe, if_neg hxy] at h1
          have hxy' : x < y := of_decide_eq_true h1
          by_cases hyz : y = z
          · subst hyz
            rw [lexLe, if_neg hxy]
            exact h1
          · rw [lexLe, if_neg hyz] at h2
            have hyz' : y < z := of_decide_eq_true h2
            have hxz' : x < z := lt_trans hxy' hyz'
            rw [lexLe, if_neg (ne_of_lt hxz')]
            simpa using hxz'

theorem itemLe_total (x y : VirtualItem) : (itemLe x y || itemLe y x) = true := by
  unfold itemLe
  by_cases h : x.isDir = y.isDir
  · rw [if_neg (fun hc => hc h), if_neg (fun hc => hc h.symm)]
    exact lexLe_total _ _
  · rw [if_pos h, if_pos (fun hc => h hc.symm)]
    cases hx : x.isDir <;> cases hy : y.isDir <;> simp_all

theorem itemLe_trans (x y z : VirtualItem) (h1 : itemLe x y = true)
    (h2 : itemLe y z = true) : itemLe x z = true := by
  unfold itemLe at h1 h2 ⊢
  by_cases hxy : x.isDir = y.isDir <;> by_cases hyz : y.isDir = z.isDir
  · have hxz : x.isDir = z.isDir := hxy.trans hyz
    rw [if_neg (fun hc => hc hxy)] at h1
    rw [if_neg (fun hc => hc hyz)] at h2
    rw [if_neg (fun hc => hc hxz)]
    exact lexLe_trans _ _ _ h1 h2
  · have hxz : ¬ x.isDir = z.isDir := fun hc => hyz (hxy.symm.trans hc)
    rw [if_pos hyz] at h2
    rw [if_pos hxz, hxy]
    exact h2
  · have hxz : ¬ x.isDir = z.isDir := fun hc => hxy (hc.trans hyz.symm)
    rw [if_pos hxy] at h1
    rw [if_pos hxz]
    exact h1
  · rw [if_pos hxy] at h1
    rw [if_pos hyz] at h2
    cases hx : x.isDir <;> cases hy : y.isDir <;> cases hz : z.isDir <;>
      simp_all

/-- C9: on a state whose keys are canonical (true of every state the code
constructs), `ListDir(p)` is empty when `p` is not a directory; otherwise it
is a permutation of exactly the items whose key's parent directory is `p`
(the direct children), arranged so that every directory precedes every file
and items of the same kind are in case-insensitive alphabetical order of
name. -/
theorem listDir_spec (fs : VirtualFS) (p : GoStr) (hcanon : CanonicalKeys fs) :
    (fs.IsDir p = false → fs.ListDir p = [])
    ∧ (fs.IsDir p = true →
        (fs.ListDir p).Perm
          ((fs.items.filter (fun e => decide (goDir e.1 = p))).map (·.2))
        ∧ (fs.ListDir p).Pairwise (fun a b => itemLe a b = true)) := by
  constructor
  · intro h
    simp [VirtualFS.ListDir, h]
  · intro h
    have hnorm : normalize p = p := canonicalKeys_isDir fs p hcanon h
    have hdp : (if normalize p = str "/" then normalize p
        else trimOneTrailSlash (normalize p)) = p := by
      by_cases hroot : normalize p = str "/"
      · rw [if_pos hroot]; exact hnorm
      · rw [if_neg hroot]
        have hcs : canonSegs p ≠ [] := by
          intro hc
          apply hroot
          rw [normalize_eq_join, hc]
          rfl
        rw [normalize_eq_join,
          trimOneTrailSlash_joinSegs _ (canonSegs_valid p) hcs,
          ← normalize_eq_join, hnorm]
    have hld : fs.ListDir p
        = ((fs.items.filter (fun e => decide (goDir e.1 = p))).map
            (·.2)).mergeSort itemLe := by
      unfold VirtualFS.ListDir
      simp only [h, Bool.not_true, Bool.false_eq_true, if_false]
      rw [hdp]
    rw [hld]
    exact ⟨List.mergeSort_perm _ _,
      List.sorted_mergeSort itemLe_trans itemLe_total _⟩

/-- Witness for `listDir_spec` at a concrete two-file directory. -/
theorem listDir_spec_witness :
    (fsTwoUnderD.ListDir (str "/d")).Pairwise (fun a b => itemLe a b = true) :=
  ((listDir_spec fsTwoUnderD (str "/d") (by decide)).2 (by decide)).2

/-! ### Claim C6 — PROPFIND status and response counts -/

theorem createResponse_isSome (fs : VirtualFS) (k : GoStr)
    (h : fs.Exists k = true) : (createResponse fs k).isSome = true := by
  unfold VirtualFS.Exists at h
  unfold createResponse
  cases hit : lookupKey k fs.items with
  | some it =>
    simp only [VirtualFS.GetItem, hit]
    by_cases hd : it.isDir <;> simp [hd]
  | none =>
    have hdir : hasDir fs.dirs k = true := by
      rw [hit] at h
      simpa using h
    have hisdir : fs.IsDir k = true := by
      unfold VirtualFS.IsDir
      rw [hit]
      exact hdir
    simp [VirtualFS.GetItem, hit, hisdir]

theorem length_filterMap_of_isSome {α β : Type _} (f : α → Option β)
    (l : List α) (h : ∀ a ∈ l, (f a).isSome = true) :
    (l.filterMap f).length = l.length := by
  induction l with
  | nil => rfl
  | cons a t ih =>
    have ha := h a (List.mem_cons_self a t)
    cases hf : f a with
    | none => rw [hf] at ha; cases ha
    | some b =>
      rw [List.filterMap_cons, hf]
      simp only [List.length_cons]
      rw [ih (fun x hx => h x (List.mem_cons_of_mem a hx))]

theorem listDir_mem_items (fs : VirtualFS) (q : GoStr) (c : VirtualItem)
    (hc : c ∈ fs.ListDir q) : ∃ e, e ∈ fs.items ∧ e.2 = c := by
  unfold VirtualFS.ListDir at hc
  by_cases h : fs.IsDir q
  · rw [h] at hc
    simp only [Bool.not_true, if_false] at hc
    have hmem := (List.mergeSort_perm _ itemLe).mem_iff.mp hc
    obtain ⟨e, he, hec⟩ := List.mem_map.mp hmem
    exact ⟨e, (List.mem_filter.mp he).1, hec⟩
  · rw [Bool.not_eq_true] at h
    rw [h] at hc
    simp at hc

/-- C6: PROPFIND yields 404 on an absent (canonical) path; on an existing
path with `Depth: 0` it yields 207 with exactly one `response`; with any
other `Depth` value — the absent header included — on an existing directory
it yields 207 with exactly `1 + N` responses, where `N` is the number of
direct children reported by `ListDir` (self plus direct children, no deeper
traversal). -/
theorem handlePropFind_counts (fs : VirtualFS) (p d : GoStr)
    (hwf : PathsConsistent fs) :
    (fs.Exists (normalize p) = false → handlePropFind fs p d = (404, []))
    ∧ (fs.Exists (normalize p) = true →
        handlePropFind fs p (str "0")
          = (207, (createResponse fs (normalize p)).toList)
        ∧ (handlePropFind fs p (str "0")).2.length = 1)
    ∧ (fs.Exists (normalize p) = true → fs.IsDir (normalize p) = true →
        d ≠ str "0" →
        (handlePropFind fs p d).1 = 207
        ∧ (handlePropFind fs p d).2.length
            = 1 + (fs.ListDir (normalize p)).length) := by
  refine ⟨fun habs => ?_, fun hex => ?_, fun hex hdir hd => ?_⟩
  · simp [handlePropFind, habs]
  · have hsome := createResponse_isSome fs (normalize p) hex
    obtain ⟨r, hr⟩ := Option.isSome_iff_exists.mp hsome
    have hself : handlePropFind fs p (str "0")
        = (207, (createResponse fs (normalize p)).toList) := by
      have e0 : ¬ (str "0" = ([] : GoStr)) := by decide
      unfold handlePropFind
      simp [hex, e0]
    refine ⟨hself, ?_⟩
    rw [hself, hr]
    rfl
  · have hsome := createResponse_isSome fs (normalize p) hex
    obtain ⟨r, hr⟩ := Option.isSome_iff_exists.mp hsome
    have hdepth : (if d = [] then str "1" else d) ≠ str "0" := by
      by_cases hd0 : d = []
      · rw [if_pos hd0]; decide
      · rw [if_neg hd0]; exact hd
    have hdec : decide ((if d = [] then str "1" else d) ≠ str "0") = true :=
      decide_eq_true hdepth
    have hchild : ∀ c ∈ fs.ListDir (normalize p),
        ((fun child : VirtualItem => createResponse fs child.path) c).isSome
          = true := by
      intro c hcmem
      obtain ⟨e, he, rfl⟩ := listDir_mem_items fs (normalize p) c hcmem
      have hpath : e.2.path = e.1 := hwf e he
      have hlk : (lookupKey e.2.path fs.items).isSome = true := by
        rw [hpath]
        exact mem_lookupKey_isSome e.1 e.2 fs.items (by rw [Prod.mk.eta]; exact he)
      refine createResponse_isSome fs e.2.path ?_
      unfold VirtualFS.Exists
      rw [hlk]
      rfl
    have hlen := length_filterMap_of_isSome _ _ hchild
    have hassemble : handlePropFind fs p d
        = (207, (createResponse fs (normalize p)).toList
            ++ (fs.ListDir (normalize p)).filterMap
              (fun child => createResponse fs child.path)) := by
      unfold handlePropFind
      simp [hex, hdir, hdec]
    rw [hassemble]
    refine ⟨rfl, ?_⟩
    simp only [List.length_append, hr, Option.toList_some,
      List.length_singleton]
    rw [hlen]

/-- Witness for `handlePropFind_counts` at a concrete directory with two
children and an absent Depth header. -/
theorem handlePropFind_counts_witness :
    (handlePropFind fsTwoUnderD (str "/d") []).1 = 207
    ∧ (handlePropFind fsTwoUnderD (str "/d") []).2.length
        = 1 + (fsTwoUnderD.ListDir (normalize (str "/d"))).length :=
  (handlePropFind_counts fsTwoUnderD (str "/d") [] (by decide)).2.2
    (by decide) (by decide) (by decide)

/-- Witness for `updateFile_frame`: a concrete successful update leaves the
directory set unchanged. -/
theorem updateFile_frame_witness :
    (fsSlashA.UpdateFile (str "/a") (str "v")).1.dirs = fsSlashA.dirs :=
  ((updateFile_frame fsSlashA (str "/a") (str "v")).1
    (fsSlashA.UpdateFile (str "/a") (str "v")).1 (by decide)).1

/-! ### Claim C1 — `Exists` after AddFile/RemoveFile sequences -/

/-- C1, counterexample.  Adding `/a`, then `/a/b` — which silently
overwrites the file item at `/a` with a directory item — then removing
`/a/b` lets the cleanup cascade delete `/a` entirely: all three operations
succeed, `/a` was added and never removed (so the claim's right-hand side
holds at `p = "/a"`), yet `Exists("/a")` is false afterwards.  Hence
`ClaimExistsIff` — the claim as stated — fails at `ops = clobberOps`,
`p = "/a"`. -/
theorem exists_iff_counterexample :
    (runOps initialVFS clobberOps).map (fun fs => fs.Exists (str "/a"))
      = some false
    ∧ c1RHS clobberOps (str "/a") = true := by decide

theorem lookupKey_eraseKey_self (k : GoStr) (l : List (GoStr × VirtualItem)) :
    lookupKey k (eraseKey k l) = none := by
  induction l with
  | nil => rfl
  | cons e rest ih =>
    by_cases he : e.1 = k
    · rw [eraseKey, if_pos he]; exact ih
    · rw [eraseKey, if_neg he, lookupKey, if_neg he]; exact ih

theorem mem_eraseKey (k : GoStr) (e : GoStr × VirtualItem)
    (l : List (GoStr × VirtualItem)) (h : e ∈ eraseKey k l) :
    e ∈ l ∧ e.1 ≠ k := by
  induction l with
  | nil => cases h
  | cons e0 rest ih =>
    by_cases he : e0.1 = k
    · rw [eraseKey, if_pos he] at h
      obtain ⟨h1, h2⟩ := ih h
      exact ⟨List.mem_cons_of_mem _ h1, h2⟩
    · rw [eraseKey, if_neg he] at h
      rcases List.mem_cons.mp h with rfl | h'
      · exact ⟨List.mem_cons_self _ _, he⟩
      · obtain ⟨h1, h2⟩ := ih h'
        exact ⟨List.mem_cons_of_mem _ h1, h2⟩

theorem hasDir_addDir_self (k : GoStr) (l : List GoStr) :
    hasDir (addDir k l) k = true := by
  unfold addDir
  by_cases h : hasDir l k
  · rw [if_pos h]; exact h
  · rw [if_neg h, hasDir, if_pos rfl]

theorem hasDir_addDir_ne (k q : GoStr) (l : List GoStr) (h : q ≠ k) :
    hasDir (addDir k l) q = hasDir l q := by
  unfold addDir
  by_cases hk : hasDir l k
  · rw [if_pos hk]
  · rw [if_neg hk, hasDir, if_neg (fun hc => h hc.symm)]

theorem hasDir_removeDir_self (k : GoStr) (l : List GoStr) :
    hasDir (removeDir k l) k = false := by
  induction l with
  | nil => rfl
  | cons d rest ih =>
    by_cases hd : d = k
    · rw [removeDir, if_pos hd]; exact ih
    · rw [removeDir, if_neg hd, hasDir, if_neg hd]; exact ih

theorem hasDir_removeDir_ne (k q : GoStr) (l : List GoStr) (h : q ≠ k) :
    hasDir (removeDir k l) q = hasDir l q := by
  induction l with
  | nil => rfl
  | cons d rest ih =>
    by_cases hd : d = k
    · have hdq : ¬ d = q := by rw [hd]; exact fun hc => h hc.symm
      rw [removeDir, if_pos hd, hasDir, if_neg hdq]
      exact ih
    · by_cases hq : d = q
      · rw [removeDir, if_neg hd, hasDir, if_pos hq, hasDir, if_pos hq]
      · rw [removeDir, if_neg hd, hasDir, if_neg hq, hasDir, if_neg hq]
        exact ih

theorem anyKeyDir_of_mem (dir : GoStr) (e : GoStr × VirtualItem)
    (l : List (GoStr × VirtualItem)) (he : e ∈ l) (hd : goDir e.1 = dir) :
    anyKeyDir dir l = true := by
  induction l with
  | nil => cases he
  | cons e0 rest ih =>
    rcases List.mem_cons.mp he with rfl | h'
    · rw [anyKeyDir, if_pos hd]
    · by_cases h0 : goDir e0.1 = dir
      · rw [anyKeyDir, if_pos h0]
      · rw [anyKeyDir, if_neg h0]; exact ih h'

theorem anyKeyDir_exists (dir : GoStr) (l : List (GoStr × VirtualItem))
    (h : anyKeyDir dir l = true) : ∃ e ∈ l, goDir e.1 = dir := by
  induction l with
  | nil => cases h
  | cons e0 rest ih =>
    by_cases h0 : goDir e0.1 = dir
    · exact ⟨e0, List.mem_cons_self _ _, h0⟩
    · rw [anyKeyDir, if_neg h0] at h
      obtain ⟨e, he, hd⟩ := ih h
      exact ⟨e, List.mem_cons_of_mem _ he, hd⟩

theorem validSegs_downward {l m : List GoStr} (h : m <+: l)
    (hv : validSegs l) : validSegs m :=
  fun s hs => hv s (h.subset hs)

theorem joinSegs_eq_root_iff (l : List GoStr) (hv : validSegs l) :
    joinSegs l = str "/" ↔ l = [] := by
  constructor
  · intro h
    by_contra hne
    exact joinSegs_ne_root l hv hne h
  · rintro rfl; rfl

theorem addParents_root (n : Nat) (fs : VirtualFS) :
    addParents n fs (str "/") = fs := by
  cases n with
  | zero => rfl
  | succ m => rw [addParents, if_pos (Or.inl rfl)]

theorem lookupKey_setKey_split (k q : GoStr) (v : VirtualItem)
    (l : List (GoStr × VirtualItem)) :
    lookupKey q (setKey k v l)
      = if q = k then some v else lookupKey q l := by
  by_cases h : q = k
  · rw [if_pos h, h, lookupKey_setKey_self]
  · rw [if_neg h, lookupKey_setKey_ne _ _ _ _ h]

/-- The parent-creation loop of `addFileToMemory`, characterised on a
canonical directory path `joinSegs d`, with sufficient fuel: it inserts a
directory item and a `dirs` entry at every nonempty prefix of `d` that is
not yet in `dirs`, and changes nothing else. -/
theorem addParents_spec (d : List GoStr) :
    validSegs d → ∀ n, d.length + 1 ≤ n → ∀ fs : VirtualFS,
      (∀ k, (∃ m, m ≠ [] ∧ m <+: d ∧ k = joinSegs m
              ∧ hasDir fs.dirs k = false) →
          lookupKey k (addParents n fs (joinSegs d)).items
            = some ⟨goBase k, k, [], true⟩)
      ∧ (∀ k, (¬ ∃ m, m ≠ [] ∧ m <+: d ∧ k = joinSegs m
              ∧ hasDir fs.dirs k = false) →
          lookupKey k (addParents n fs (joinSegs d)).items
            = lookupKey k fs.items)
      ∧ (∀ k, hasDir (addParents n fs (joinSegs d)).dirs k = true
          ↔ (hasDir fs.dirs k = true ∨ ∃ m, m ≠ [] ∧ m <+: d ∧ k = joinSegs m))
      ∧ (∀ e ∈ (addParents n fs (joinSegs d)).items, e ∈ fs.items
          ∨ ∃ m, m ≠ [] ∧ m <+: d ∧ hasDir fs.dirs (joinSegs m) = false
              ∧ e = (joinSegs m,
                  ⟨goBase (joinSegs m), joinSegs m, [], true⟩)) := by
  induction d using List.reverseRecOn with
  | nil =>
    intro _ n _ fs
    rw [show joinSegs [] = str "/" from rfl]
    rw [addParents_root]
    refine ⟨?_, ?_, ?_, ?_⟩
    · rintro k ⟨m, hm1, hm2, _, _⟩
      exact absurd (List.prefix_nil.mp hm2) hm1
    · intro k _
      rfl
    · intro k
      constructor
      · intro h
        exact Or.inl h
      · rintro (h | ⟨m, hm1, hm2, _⟩)
        · exact h
        · exact absurd (List.prefix_nil.mp hm2) hm1
    · intro e he
      exact Or.inl he
  | append_singleton d s ih =>
    intro hv n hn fs
    rw [List.length_append, List.length_singleton] at hn
    cases n with
    | zero => omega
    | succ n' =>
      have hvd : validSegs d := fun x hx => hv x (List.mem_append_left _ hx)
      have hs : validSeg s := hv s (by simp)
      have hne : d ++ [s] ≠ [] := by simp
      have hguard : ¬ (joinSegs (d ++ [s]) = str "/"
          ∨ joinSegs (d ++ [s]) = str ".") := by
        push_neg
        exact ⟨joinSegs_ne_root _ hv hne, joinSegs_ne_dot _⟩
      have hjds_ne : ∀ m, m ≠ [] → m <+: d → joinSegs m ≠ joinSegs (d ++ [s]) := by
        intro m hm1 hm2 hc
        have := joinSegs_inj (validSegs_downward hm2 hvd) hv hc
        subst this
        have := hm2.length_le
        simp at this
      have hprefix_split : ∀ m : List GoStr, (m ≠ [] ∧ m <+: d ++ [s])
          ↔ ((m ≠ [] ∧ m <+: d) ∨ m = d ++ [s]) := by
        intro m
        constructor
        · rintro ⟨hm1, hm2⟩
          rcases List.prefix_concat_iff.mp hm2 with h | h
          · exact Or.inr h
          · exact Or.inl ⟨hm1, h⟩
        · rintro (⟨hm1, hm2⟩ | rfl)
          · exact ⟨hm1, hm2.trans (List.prefix_append d [s])⟩
          · exact ⟨hne, List.prefix_rfl⟩
      by_cases hh : hasDir fs.dirs (joinSegs (d ++ [s])) = true
      · have hstep : addParents (n' + 1) fs (joinSegs (d ++ [s]))
            = addParents n' fs (joinSegs d) := by
          rw [addParents, if_neg hguard, if_pos hh, goDir_joinSegs d s hv]
        obtain ⟨ih1, ih2, ih3, ih4⟩ := ih hvd n' (by omega) fs
        rw [hstep]
        refine ⟨?_, ?_, ?_, ?_⟩
        · rintro k ⟨m, hm1, hm2, rfl, hdir⟩
          rcases List.prefix_concat_iff.mp hm2 with rfl | h
          · rw [hdir] at hh; cases hh
          · exact ih1 _ ⟨m, hm1, h, rfl, hdir⟩
        · intro k hk
          refine ih2 k ?_
          rintro ⟨m, hm1, hm2, rfl, hdir⟩
          exact hk ⟨m, hm1, hm2.trans (List.prefix_append d [s]), rfl, hdir⟩
        · intro k
          rw [ih3 k]
          constructor
          · rintro (h | ⟨m, hm1, hm2, rfl⟩)
            · exact Or.inl h
            · exact Or.inr ⟨m, hm1, hm2.trans (List.prefix_append d [s]), rfl⟩
          · rintro (h | ⟨m, hm1, hm2, rfl⟩)
            · exact Or.inl h
            · rcases List.prefix_concat_iff.mp hm2 with rfl | h2
              · exact Or.inl hh
              · exact Or.inr ⟨m, hm1, h2, rfl⟩
        · intro e he
          rcases ih4 e he with h | ⟨m, hm1, hm2, hdir, rfl⟩
          · exact Or.inl h
          · exact Or.inr ⟨m, hm1, hm2.trans (List.prefix_append d [s]), hdir, rfl⟩
      · set jds := joinSegs (d ++ [s]) with hjds
        set fs2 : VirtualFS :=
          { items := setKey jds ⟨goBase jds, jds, [], true⟩ fs.items,
            dirs := addDir jds fs.dirs } with hfs2
        have hstep : addParents (n' + 1) fs jds
            = addParents n' fs2 (joinSegs d) := by
          rw [addParents, if_neg hguard, if_neg hh, goDir_joinSegs d s hv]
        obtain ⟨ih1, ih2, ih3, ih4⟩ := ih hvd n' (by omega) fs2
        have hfs2_lookup : ∀ k, lookupKey k fs2.items
            = if k = jds then some ⟨goBase jds, jds, [], true⟩
              else lookupKey k fs.items := by
          intro k
          rw [hfs2]
          exact lookupKey_setKey_split _ _ _ _
        have hfs2_dirs : ∀ k, k ≠ jds → hasDir fs2.dirs k = hasDir fs.dirs k := by
          intro k hk
          rw [hfs2]
          exact hasDir_addDir_ne _ _ _ hk
        rw [hstep]
        refine ⟨?_, ?_, ?_, ?_⟩
        · rintro k ⟨m, hm1, hm2, rfl, hdir⟩
          rcases List.prefix_concat_iff.mp hm2 with rfl | h
          · have : ¬ ∃ m', m' ≠ [] ∧ m' <+: d ∧ joinSegs (d ++ [s]) = joinSegs m'
                ∧ hasDir fs2.dirs (joinSegs (d ++ [s])) = false := by
              rintro ⟨m', hm1', hm2', heq, _⟩
              exact hjds_ne m' hm1' hm2' heq.symm
            rw [ih2 _ this, hfs2_lookup, if_pos rfl]
          · have hkne : joinSegs m ≠ jds := hjds_ne m hm1 h
            refine ih1 _ ⟨m, hm1, h, rfl, ?_⟩
            rw [hfs2_dirs _ hkne]
            exact hdir
        · intro k hk
          have hkne : k ≠ jds := by
            rintro rfl
            exact hk ⟨d ++ [s], hne, List.prefix_rfl, rfl, by simpa using hh⟩
          have : ¬ ∃ m, m ≠ [] ∧ m <+: d ∧ k = joinSegs m
              ∧ hasDir fs2.dirs k = false := by
            rintro ⟨m, hm1, hm2, rfl, hdir⟩
            rw [hfs2_dirs _ (hjds_ne m hm1 hm2)] at hdir
            exact hk ⟨m, hm1, hm2.trans (List.prefix_append d [s]), rfl, hdir⟩
          rw [ih2 _ this, hfs2_lookup, if_neg hkne]
        · intro k
          rw [ih3 k]
          constructor
          · rintro (h | ⟨m, hm1, hm2, rfl⟩)
            · by_cases hk : k = jds
              · exact Or.inr ⟨d ++ [s], hne, List.prefix_rfl, hk⟩
              · rw [hfs2_dirs _ hk] at h
                exact Or.inl h
            · exact Or.inr ⟨m, hm1, hm2.trans (List.prefix_append d [s]), rfl⟩
          · rintro (h | ⟨m, hm1, hm2, rfl⟩)
            · left
              by_cases hk : k = jds
              · rw [hk, hfs2]
                exact hasDir_addDir_self _ _
              · rw [hfs2_dirs _ hk]
                exact h
            · rcases List.prefix_concat_iff.mp hm2 with rfl | h2
              · left
                rw [hfs2]
                exact hasDir_addDir_self _ _
              · exact Or.inr ⟨m, hm1, h2, rfl⟩
        · intro e he
          rcases ih4 e he with h | ⟨m, hm1, hm2, hdir, rfl⟩
          · rw [hfs2] at h
            rcases List.mem_cons.mp h with rfl | h'
            · exact Or.inr ⟨d ++ [s], hne, List.prefix_rfl, by simpa using hh, rfl⟩
            · exact Or.inl (mem_eraseKey _ _ _ h').1
          · refine Or.inr ⟨m, hm1, hm2.trans (List.prefix_append d [s]), ?_, rfl⟩
            rw [← hfs2_dirs _ (hjds_ne m hm1 hm2)]
            exact hdir

theorem dirKeySet_cons (m : List GoStr) (L : List (List GoStr)) (d : List GoStr) :
    dirKeySet (m :: L) d ↔ dirKeySet L d ∨ (d ≠ [] ∧ d <+: m ∧ d ≠ m) := by
  unfold dirKeySet
  constructor
  · rintro ⟨h1, l, hl, h2, h3⟩
    rcases List.mem_cons.mp hl with rfl | hl'
    · exact Or.inr ⟨h1, h2, h3⟩
    · exact Or.inl ⟨h1, l, hl', h2, h3⟩
  · rintro (⟨h1, l, hl, h2, h3⟩ | ⟨h1, h2, h3⟩)
    · exact ⟨h1, l, List.mem_cons_of_mem _ hl, h2, h3⟩
    · exact ⟨h1, m, List.mem_cons_self _ _, h2, h3⟩

theorem prefix_concat_proper {m d0 : List GoStr} {s0 : GoStr}
    (hm : m = d0 ++ [s0]) (d : List GoStr) :
    (d <+: m ∧ d ≠ m) ↔ d <+: d0 := by
  subst hm
  constructor
  · rintro ⟨h1, h2⟩
    rcases List.prefix_concat_iff.mp h1 with rfl | h
    · exact absurd rfl h2
    · exact h
  · intro h
    refine ⟨h.trans (List.prefix_append _ _), ?_⟩
    rintro rfl
    have := h.length_le
    simp at this

theorem addClobbers_false_no_file (fs : VirtualFS) (p : GoStr)
    (hclob : addClobbers fs p = false) (q : GoStr)
    (hq : q ∈ strictAncestors (normalize p)) (it : VirtualItem)
    (hit : lookupKey q fs.items = some it) : it.isDir = true := by
  unfold addClobbers at hclob
  rw [List.any_eq_false] at hclob
  have h := hclob q hq
  rw [hit] at h
  simpa using h

set_option maxHeartbeats 1000000 in
/-- Successful clobber-free `AddFile` preserves the invariant and the
well-formedness of the live-file list, recording the new canonical file. -/
theorem addFile_inv (fs : VirtualFS) (L : List (List GoStr)) (p u : GoStr)
    (fs' : VirtualFS) (hLOK : LOK L) (hInv : Inv fs L)
    (hclob : addClobbers fs p = false)
    (hok : fs.AddFile p u = (fs', none)) :
    LOK (canonSegs p :: L) ∧ Inv fs' (canonSegs p :: L) := by
  obtain ⟨I1, I2, I3, I4, I5⟩ := hInv
  obtain ⟨hLv, hLa⟩ := hLOK
  set m := canonSegs p with hmdef
  have hmv : validSegs m := canonSegs_valid p
  have hfp : normalize p = joinSegs m := normalize_eq_join p
  -- extract the success conditions
  unfold VirtualFS.AddFile at hok
  by_cases h1 : (lookupKey (normalize p) fs.items).isSome = true
  · rw [if_pos h1] at hok
    exact absurd (congrArg Prod.snd hok) (by simp)
  · rw [if_neg h1] at hok
    by_cases h2 : hasDir fs.dirs (normalize p) = true
    · rw [if_pos h2] at hok
      exact absurd (congrArg Prod.snd hok) (by simp)
    · rw [if_neg h2, Prod.mk.injEq] at hok
      have hfs' : addFileToMemory fs (normalize p) u = fs' := hok.1
      have hlk : lookupKey (joinSegs m) fs.items = none := by
        rw [← hfp]
        exact Option.not_isSome_iff_eq_none.mp h1
      have hhd : hasDir fs.dirs (joinSegs m) = false := by
        rw [← hfp]
        exact Bool.not_eq_true _ ▸ (by simpa using h2)
      -- m is nonempty
      have hm_ne : m ≠ [] := by
        rintro hm0
        rw [hm0] at hhd
        have := (I4 (joinSegs [])).mpr (Or.inl rfl)
        rw [this] at hhd
        cases hhd
      -- m is not live
      have hmnotL : m ∉ L := by
        intro hmem
        have := I1 (joinSegs m) ⟨m, hmem, rfl⟩
        obtain ⟨u0, hu0⟩ := this
        rw [hlk] at hu0
        cases hu0
      -- no live file strictly above m
      have hnofile : ∀ l ∈ L, ¬ (l <+: m ∧ l ≠ m) := by
        rintro l hl ⟨hpre, hne⟩
        have hlv : validSegs l := (hLv l hl).2
        have hanc : joinSegs l ∈ strictAncestors (normalize p) := by
          rw [hfp]
          exact (mem_strictAncestors _ m hmv).mpr ⟨l, hpre, hne, rfl⟩
        obtain ⟨u0, hu0⟩ := I1 (joinSegs l) ⟨l, hl, rfl⟩
        have := addClobbers_false_no_file fs p hclob (joinSegs l) hanc _ hu0
        cases this
      -- m is not a dir key
      have hmnotdir : ¬ ∃ d, dirKeySet L d ∧ joinSegs m = joinSegs d := by
        rintro ⟨d, hd, heq⟩
        have := (I4 (joinSegs m)).mpr (Or.inr ⟨d, hd, heq⟩)
        rw [this] at hhd
        cases hhd
      -- no live l below m either (m would be a dir key)
      have hnobelow : ∀ l ∈ L, ¬ (m <+: l ∧ m ≠ l) := by
        rintro l hl ⟨hpre, hne⟩
        exact hmnotdir ⟨m, ⟨hm_ne, l, hl, hpre, hne⟩, rfl⟩
      have hLOK' : LOK (m :: L) := by
        constructor
        · intro l hl
          rcases List.mem_cons.mp hl with rfl | hl'
          · exact ⟨hm_ne, hmv⟩
          · exact hLv l hl'
        · intro l hl l' hl'
          rcases List.mem_cons.mp hl with rfl | hmem <;>
            rcases List.mem_cons.mp hl' with rfl | hmem'
          · intro _; rfl
          · intro hpre
            by_contra hne
            exact hnobelow l' hmem' ⟨hpre, hne⟩
          · intro hpre
            by_contra hne
            exact hnofile l hmem ⟨hpre, hne⟩
          · exact hLa l hmem l' hmem'
      refine ⟨hLOK', ?_⟩
      -- set up the addFileToMemory unfolding
      obtain ⟨d0, s0, hm⟩ : ∃ d0 s0, m = d0 ++ [s0] := by
        rcases List.eq_nil_or_concat m with h | ⟨d0, s0, h⟩
        · exact absurd h hm_ne
        · exact ⟨d0, s0, by simpa [List.concat_eq_append] using h⟩
      have hvd0 : validSegs d0 :=
        validSegs_downward (hm ▸ List.prefix_append d0 [s0]) hmv
      have hgd : goDir (joinSegs m) = joinSegs d0 := by
        rw [hm]
        exact goDir_joinSegs d0 s0 (hm ▸ hmv)
      have hfuel : d0.length + 1 ≤ (joinSegs m).length + 1 := by
        have h1 := joinSegs_length m
        have h2 : m.length = d0.length + 1 := by rw [hm]; simp
        omega
      set fs1 : VirtualFS :=
        { items := setKey (joinSegs m)
            ⟨goBase (joinSegs m), joinSegs m, u, false⟩ fs.items,
          dirs := fs.dirs } with hfs1
      have hmem1 : addFileToMemory fs (normalize p) u
          = addParents ((joinSegs m).length + 1) fs1 (joinSegs d0) := by
        unfold addFileToMemory
        rw [hfp, normalize_joinSegs m hmv]
        dsimp only
        rw [hgd]
      obtain ⟨AP1, AP2, AP3, AP4⟩ :=
        addParents_spec d0 hvd0 ((joinSegs m).length + 1) hfuel fs1
      have hfs'eq : fs' = addParents ((joinSegs m).length + 1) fs1 (joinSegs d0) := by
        rw [← hfs', hmem1]
      subst hfs'eq
      have hfs1_lookup : ∀ k, lookupKey k fs1.items
          = if k = joinSegs m
            then some ⟨goBase (joinSegs m), joinSegs m, u, false⟩
            else lookupKey k fs.items := by
        intro k
        rw [hfs1]
        exact lookupKey_setKey_split _ _ _ _
      have hfs1_dirs : fs1.dirs = fs.dirs := rfl
      -- the new-prefix branch never fires on keys that are live or old dirs
      have hjm_ne_pref : ∀ d, d <+: d0 → joinSegs d ≠ joinSegs m := by
        intro d hd hc
        have := joinSegs_inj (validSegs_downward hd hvd0) hmv hc
        subst this
        have h1 := hd.length_le
        have h2 : m.length = d0.length + 1 := by rw [hm]; simp
        omega
      refine ⟨?_, ?_, ?_, ?_, ?_⟩
      · -- files
        rintro k ⟨l, hl, rfl⟩
        rcases List.mem_cons.mp hl with heq | hlmem
        · refine ⟨u, ?_⟩
          have hnb : ¬ ∃ m', m' ≠ [] ∧ m' <+: d0 ∧ joinSegs l = joinSegs m'
              ∧ hasDir fs1.dirs (joinSegs l) = false := by
            rintro ⟨m', _, hm2, heq2, _⟩
            rw [heq] at heq2
            exact hjm_ne_pref m' hm2 heq2.symm
          rw [AP2 _ hnb, hfs1_lookup,
            if_pos (show joinSegs l = joinSegs m by rw [heq])]
          rw [heq]
        · have hlne : joinSegs l ≠ joinSegs m := by
            intro hc
            have := joinSegs_inj (hLv l hlmem).2 hmv hc
            subst this
            exact hmnotL hlmem
          have hnb : ¬ ∃ m', m' ≠ [] ∧ m' <+: d0 ∧ joinSegs l = joinSegs m'
              ∧ hasDir fs1.dirs (joinSegs l) = false := by
            rintro ⟨m', hm1', hm2', heq, _⟩
            have : l = m' := joinSegs_inj (hLv l hlmem).2
              (validSegs_downward hm2' hvd0) heq
            subst this
            refine hnofile l hlmem ?_
            rw [prefix_concat_proper hm]
            exact hm2'
          rw [AP2 _ hnb, hfs1_lookup, if_neg hlne]
          exact I1 _ ⟨l, hlmem, rfl⟩
      · -- directories
        rintro k hklive ⟨d, hdks, rfl⟩
        have hdv : validSegs d := by
          rcases (dirKeySet_cons m L d).mp hdks with
            ⟨hdne, l, hl, hpre, hne⟩ | ⟨hdne, hpre, hne⟩
          · exact validSegs_downward hpre (hLv l hl).2
          · exact validSegs_downward hpre hmv
        have hdne0 : d ≠ [] := ((dirKeySet_cons m L d).mp hdks).elim
          (fun h => h.1) (fun h => h.1)
        have hkne : joinSegs d ≠ joinSegs m := by
          intro hc
          have hdm : d = m := joinSegs_inj hdv hmv hc
          rcases (dirKeySet_cons m L d).mp hdks with hold | ⟨_, hpre, hne⟩
          · exact hmnotdir ⟨d, hold, hc.symm⟩
          · exact hne hdm
        rcases (dirKeySet_cons m L d).mp hdks with hold | ⟨hdne, hprem, hnem⟩
        · -- old directory: unchanged
          have hdir_true : hasDir fs.dirs (joinSegs d) = true :=
            (I4 _).mpr (Or.inr ⟨d, hold, rfl⟩)
          have hnb : ¬ ∃ m', m' ≠ [] ∧ m' <+: d0 ∧ joinSegs d = joinSegs m'
              ∧ hasDir fs1.dirs (joinSegs d) = false := by
            rintro ⟨m', _, _, _, hfalse⟩
            rw [hfs1_dirs, hdir_true] at hfalse
            cases hfalse
          rw [AP2 _ hnb, hfs1_lookup, if_neg hkne]
          refine I2 _ ?_ ⟨d, hold, rfl⟩
          rintro ⟨l, hl, heq⟩
          exact hklive ⟨l, List.mem_cons_of_mem _ hl, heq⟩
        · -- new prefix of m
          have hpred0 : d <+: d0 := (prefix_concat_proper hm d).mp ⟨hprem, hnem⟩
          by_cases hdir : hasDir fs.dirs (joinSegs d) = true
          · -- already a directory of L: unchanged
            rcases (I4 _).mp hdir with hroot | ⟨d', hd', heq⟩
            · exact absurd hroot (joinSegs_ne_root d hdv hdne)
            · have hnb : ¬ ∃ m', m' ≠ [] ∧ m' <+: d0 ∧ joinSegs d = joinSegs m'
                  ∧ hasDir fs1.dirs (joinSegs d) = false := by
                rintro ⟨m', _, _, _, hfalse⟩
                rw [hfs1_dirs, hdir] at hfalse
                cases hfalse
              rw [AP2 _ hnb, hfs1_lookup, if_neg hkne]
              refine I2 _ ?_ ⟨d', hd', heq⟩
              rintro ⟨l, hl, heq'⟩
              exact hklive ⟨l, List.mem_cons_of_mem _ hl, heq'⟩
          · -- freshly created by the loop
            exact AP1 _ ⟨d, hdne, hpred0, rfl, by
              rw [hfs1_dirs]
              simpa using hdir⟩
      · -- absent keys
        intro k hklive hkdir
        have hkne : k ≠ joinSegs m := by
          rintro rfl
          exact hklive ⟨m, List.mem_cons_self _ _, rfl⟩
        have hnb : ¬ ∃ m', m' ≠ [] ∧ m' <+: d0 ∧ k = joinSegs m'
            ∧ hasDir fs1.dirs k = false := by
          rintro ⟨m', hm1', hm2', rfl, _⟩
          refine hkdir ⟨m', ?_, rfl⟩
          rw [dirKeySet_cons]
          refine Or.inr ⟨hm1', ?_⟩
          rw [prefix_concat_proper hm]
          exact hm2'
        rw [AP2 _ hnb, hfs1_lookup, if_neg hkne]
        refine I3 _ ?_ ?_
        · rintro ⟨l, hl, heq⟩
          exact hklive ⟨l, List.mem_cons_of_mem _ hl, heq⟩
        · rintro ⟨d, hd, heq⟩
          refine hkdir ⟨d, ?_, heq⟩
          rw [dirKeySet_cons]
          exact Or.inl hd
      · -- dirs set
        intro k
        rw [AP3 k, hfs1_dirs]
        constructor
        · rintro (h | ⟨m', hm1', hm2', rfl⟩)
          · rcases (I4 k).mp h with hroot | ⟨d, hd, heq⟩
            · exact Or.inl hroot
            · refine Or.inr ⟨d, ?_, heq⟩
              rw [dirKeySet_cons]
              exact Or.inl hd
          · refine Or.inr ⟨m', ?_, rfl⟩
            rw [dirKeySet_cons]
            refine Or.inr ⟨hm1', ?_⟩
            rw [prefix_concat_proper hm]
            exact hm2'
        · rintro (hroot | ⟨d, hd, rfl⟩)
          · exact Or.inl ((I4 k).mpr (Or.inl hroot))
          · rcases (dirKeySet_cons m L d).mp hd with hold | ⟨hdne, hprem, hnem⟩
            · exact Or.inl ((I4 _).mpr (Or.inr ⟨d, hold, rfl⟩))
            · exact Or.inr ⟨d, hdne, (prefix_concat_proper hm d).mp ⟨hprem, hnem⟩, rfl⟩
      · -- lookup visibility
        intro e he
        rcases AP4 e he with hin1 | ⟨m', hm1', hm2', hdfalse, rfl⟩
        · rw [hfs1] at hin1
          rcases List.mem_cons.mp hin1 with rfl | hin
          · have hnb : ¬ ∃ m', m' ≠ [] ∧ m' <+: d0 ∧ joinSegs m = joinSegs m'
                ∧ hasDir fs1.dirs (joinSegs m) = false := by
              rintro ⟨m', _, hm2', heq, _⟩
              exact hjm_ne_pref m' hm2' heq.symm
            rw [AP2 _ hnb, hfs1_lookup]
            simp
          · obtain ⟨hmemfs, hnekey⟩ := mem_eraseKey _ _ _ hin
            have hold : lookupKey e.1 fs.items = some e.2 := I5 e hmemfs
            have hnb : ¬ ∃ m', m' ≠ [] ∧ m' <+: d0 ∧ e.1 = joinSegs m'
                ∧ hasDir fs1.dirs e.1 = false := by
              rintro ⟨m', hm1', hm2', hkey, hdfalse⟩
              rw [hfs1_dirs] at hdfalse
              -- e.1 is a key of fs with hasDir false: it can be neither a
              -- live file above m (clobber-free) nor a directory key
              have hklive : ¬ ∃ l ∈ L, e.1 = joinSegs l := by
                rintro ⟨l, hl, hkeq⟩
                rw [hkey] at hkeq
                have : m' = l := joinSegs_inj (validSegs_downward hm2' hvd0)
                  (hLv l hl).2 hkeq
                subst this
                refine hnofile m' hl ?_
                rw [prefix_concat_proper hm]
                exact hm2'
              have hkdir : ¬ ∃ d, dirKeySet L d ∧ e.1 = joinSegs d := by
                rintro ⟨d, hd, heq⟩
                have := (I4 e.1).mpr (Or.inr ⟨d, hd, heq⟩)
                rw [this] at hdfalse
                cases hdfalse
              have := I3 e.1 hklive hkdir
              rw [this] at hold
              cases hold
            rw [AP2 _ hnb, hfs1_lookup, if_neg hnekey, hold]
        · have hk_dirkey : dirKeySet (m :: L) m' := by
            rw [dirKeySet_cons]
            refine Or.inr ⟨hm1', ?_⟩
            rw [prefix_concat_proper hm]
            exact hm2'
          by_cases hdfs : hasDir fs.dirs (joinSegs m') = true
          · rw [hfs1_dirs] at hdfalse
            rw [hdfs] at hdfalse
            cases hdfalse
          · refine Eq.trans (AP1 _ ⟨m', hm1', hm2', rfl, hdfalse⟩) rfl

theorem Chr_congr {fs : VirtualFS} {F : List (List GoStr)}
    {D D' : List GoStr → Prop} (h : ∀ e, D e ↔ D' e)
    (hc : Chr fs F D) : Chr fs F D' := by
  obtain ⟨c1, c2, c3, c4, c5⟩ := hc
  refine ⟨c1, ?_, ?_, ?_, c5⟩
  · rintro k hl ⟨d, hd, hk⟩
    exact c2 k hl ⟨d, (h d).mpr hd, hk⟩
  · rintro k hl hd
    refine c3 k hl ?_
    rintro ⟨d, hdd, hk⟩
    exact hd ⟨d, (h d).mp hdd, hk⟩
  · intro k
    rw [c4 k]
    constructor
    · rintro (hr | ⟨d, hd, hk⟩)
      · exact Or.inl hr
      · exact Or.inr ⟨d, (h d).mp hd, hk⟩
    · rintro (hr | ⟨d, hd, hk⟩)
      · exact Or.inl hr
      · exact Or.inr ⟨d, (h d).mpr hd, hk⟩

theorem goDir_key_parent {x d : List GoStr} (hxv : validSegs x) (hx : x ≠ [])
    (hdv : validSegs d) (h : goDir (joinSegs x) = joinSegs d) :
    ∃ s, x = d ++ [s] := by
  rcases List.eq_nil_or_concat x with rfl | ⟨x0, s, hx0⟩
  · exact absurd rfl hx
  · rw [List.concat_eq_append] at hx0
    subst hx0
    rw [goDir_joinSegs x0 s hxv] at h
    have hx0d : x0 = d := joinSegs_inj
      (validSegs_downward (List.prefix_append _ _) hxv) hdv h
    exact ⟨s, by rw [hx0d]⟩

theorem cleanupFuel_root (n : Nat) (fs : VirtualFS) :
    cleanupFuel n fs (str "/") = fs := by
  cases n with
  | zero => rfl
  | succ m => rw [cleanupFuel, if_pos (Or.inl rfl)]

theorem concat_ne_self (d : List GoStr) (s : GoStr) : d ++ [s] ≠ d := by
  intro h
  have := congrArg List.length h
  simp at this

/-- Base case of the cleanup walk: at the root, the walk stops, and — since
every proper prefix of `m` has been deleted and was dead — the remaining
directory set is exactly the one induced by `F`. -/
theorem cleanupFuel_walk_nil (F : List (List GoStr)) (m : List GoStr)
    (hdead : ∀ e, e ≠ [] → e <+: m → e ≠ m →
      ∀ l ∈ F, ¬ (e <+: l ∧ e ≠ l))
    (fs : VirtualFS)
    (hchr : Chr fs F (fun e => (e ≠ [] ∧
        ((∃ l ∈ F, e <+: l ∧ e ≠ l) ∨ (e <+: m ∧ e ≠ m)))
        ∧ ¬ (([] : List GoStr) <+: e ∧ e ≠ [] ∧ e <+: m ∧ e ≠ m)))
    (n : Nat) :
    Chr (cleanupFuel n fs (joinSegs [])) F (dirKeySet F) := by
  rw [show joinSegs [] = str "/" from rfl, cleanupFuel_root]
  refine Chr_congr ?_ hchr
  intro e
  constructor
  · rintro ⟨⟨hne, hor⟩, hnot⟩
    rcases hor with ⟨l, hl, hp, hnel⟩ | ⟨hpm, hnem⟩
    · exact ⟨hne, l, hl, hp, hnel⟩
    · exact absurd ⟨e.nil_prefix, hne, hpm, hnem⟩ hnot
  · rintro ⟨hne, l, hl, hp, hnel⟩
    refine ⟨⟨hne, Or.inl ⟨l, hl, hp, hnel⟩⟩, ?_⟩
    rintro ⟨_, hne2, hpm, hnem⟩
    exact hdead e hne2 hpm hnem l hl ⟨hp, hnel⟩

/-- The `cleanupEmptyDirectories` walk, characterised.  Starting at a proper
prefix `d` of the removed file `m`, in a state whose directory set is the
original one (`F`'s prefixes plus `m`'s proper prefixes) minus the
already-deleted prefixes strictly between `d` and `m` — all dead — the walk
deletes exactly the remaining dead prefixes of `m` and ends in the state
characterised by `F`'s own directory set. -/
theorem cleanupFuel_walk (F : List (List GoStr)) (m : List GoStr)
    (hFv : ∀ l ∈ F, l ≠ [] ∧ validSegs l)
    (hmv : validSegs m)
    (hinc : ∀ l ∈ F, ¬ l <+: m ∧ ¬ m <+: l) :
    ∀ (B : Nat) (d : List GoStr), d.length ≤ B → d <+: m → d ≠ m →
      (∀ e, d <+: e → e ≠ d → e <+: m → e ≠ m →
        ∀ l ∈ F, ¬ (e <+: l ∧ e ≠ l)) →
      ∀ fs : VirtualFS, Chr fs F (fun e => (e ≠ [] ∧
          ((∃ l ∈ F, e <+: l ∧ e ≠ l) ∨ (e <+: m ∧ e ≠ m)))
          ∧ ¬ (d <+: e ∧ e ≠ d ∧ e <+: m ∧ e ≠ m)) →
      ∀ n, d.length + 1 ≤ n →
      Chr (cleanupFuel n fs (joinSegs d)) F (dirKeySet F) := by
  intro B
  induction B with
  | zero =>
    intro d hdB hdm hdnem hdead fs hchr n _
    have hd0 : d = [] := List.length_eq_zero.mp (Nat.le_antisymm hdB (Nat.zero_le _))
    subst hd0
    exact cleanupFuel_walk_nil F m
      (fun e hne hpm hnem => hdead e e.nil_prefix hne hpm hnem) fs hchr n
  | succ B ihB =>
    intro d hdB hdm hdnem hdead fs hchr n hn
    have hdv : validSegs d := validSegs_downward hdm hmv
    rcases List.eq_nil_or_concat d with rfl | ⟨d', s', hd⟩
    · exact cleanupFuel_walk_nil F m
        (fun e hne hpm hnem => hdead e e.nil_prefix hne hpm hnem) fs hchr n
    · rw [List.concat_eq_append] at hd
      subst hd
      have hd_ne : d' ++ [s'] ≠ [] := by simp
      have hlen : (d' ++ [s']).length = d'.length + 1 := by simp
      have hguard : ¬ (joinSegs (d' ++ [s']) = str "/"
          ∨ joinSegs (d' ++ [s']) = str ".") := by
        push_neg
        exact ⟨joinSegs_ne_root _ hdv hd_ne, joinSegs_ne_dot _⟩
      cases n with
      | zero => omega
      | succ n' =>
        obtain ⟨c1, c2, c3, c4, c5⟩ := hchr
        have hFkey : ∀ l ∈ F, joinSegs l ≠ joinSegs (d' ++ [s']) := by
          intro l hl hc
          have : l = d' ++ [s'] := joinSegs_inj (hFv l hl).2 hdv hc
          exact (hinc l hl).1 (this ▸ hdm)
        rw [cleanupFuel, if_neg hguard]
        by_cases hchild : anyKeyDir (joinSegs (d' ++ [s'])) fs.items = true
        · rw [if_pos hchild]
          -- a child exists: some live file lies strictly below d
          obtain ⟨e, he, hgd⟩ := anyKeyDir_exists _ _ hchild
          have hsome : lookupKey e.1 fs.items = some e.2 := c5 e he
          have hwit : ∃ l ∈ F, (d' ++ [s']) <+: l ∧ (d' ++ [s']) ≠ l := by
            by_cases hlive : ∃ l ∈ F, e.1 = joinSegs l
            · obtain ⟨l, hl, hkey⟩ := hlive
              have hlv := hFv l hl
              rw [hkey] at hgd
              obtain ⟨s, hls⟩ := goDir_key_parent hlv.2 hlv.1 hdv hgd
              refine ⟨l, hl, ?_, ?_⟩
              · rw [hls]; exact List.prefix_append _ _
              · rw [hls]; exact fun hc => concat_ne_self _ s hc.symm
            · by_cases hdk : ∃ x, ((x ≠ [] ∧
                  ((∃ l ∈ F, x <+: l ∧ x ≠ l) ∨ (x <+: m ∧ x ≠ m)))
                  ∧ ¬ ((d' ++ [s']) <+: x ∧ x ≠ d' ++ [s'] ∧ x <+: m ∧ x ≠ m))
                  ∧ e.1 = joinSegs x
              · obtain ⟨x, ⟨⟨hxne, hor⟩, hnot⟩, hkey⟩ := hdk
                have hxv : validSegs x := by
                  rcases hor with ⟨l, hl, hp, _⟩ | ⟨hp, _⟩
                  · exact validSegs_downward hp (hFv l hl).2
                  · exact validSegs_downward hp hmv
                rw [hkey] at hgd
                obtain ⟨s, hxs⟩ := goDir_key_parent hxv hxne hdv hgd
                rcases hor with ⟨l, hl, hp, hnel⟩ | ⟨hpm, hnem⟩
                · refine ⟨l, hl, ?_, ?_⟩
                  · rw [hxs] at hp
                    exact (List.prefix_append _ _).trans hp
                  · intro hc
                    have h1 : x.length < l.length := by
                      rcases lt_or_eq_of_le hp.length_le with h | h
                      · exact h
                      · exact absurd (hp.eq_of_length h) hnel
                    have h2 : x.length = (d' ++ [s']).length + 1 := by
                      rw [hxs]; simp
                    have h3 := congrArg List.length hc
                    omega
                · exact absurd ⟨by rw [hxs]; exact List.prefix_append _ _,
                    by rw [hxs]; exact concat_ne_self _ s, hpm, hnem⟩ hnot
              · have := c3 e.1 hlive hdk
                rw [this] at hsome
                cases hsome
          obtain ⟨l0, hl0, hdl0, hdnel0⟩ := hwit
          refine Chr_congr ?_ ⟨c1, c2, c3, c4, c5⟩
          intro e'
          constructor
          · rintro ⟨⟨hne, hor⟩, hnot⟩
            rcases hor with ⟨l, hl, hp, hnel⟩ | ⟨hpm, hnem⟩
            · exact ⟨hne, l, hl, hp, hnel⟩
            · rcases List.prefix_or_prefix_of_prefix hpm hdm with hed | hde
              · refine ⟨hne, l0, hl0, hed.trans hdl0, ?_⟩
                intro hc
                have h1 : (d' ++ [s']).length < l0.length := by
                  rcases lt_or_eq_of_le hdl0.length_le with h | h
                  · exact h
                  · exact absurd (hdl0.eq_of_length h) hdnel0
                have h2 := hed.length_le
                have h3 := congrArg List.length hc
                omega
              · by_cases hede : e' = d' ++ [s']
                · subst hede
                  exact ⟨hne, l0, hl0, hdl0, hdnel0⟩
                · exact absurd ⟨hde, hede, hpm, hnem⟩ hnot
          · rintro ⟨hne, l, hl, hp, hnel⟩
            refine ⟨⟨hne, Or.inl ⟨l, hl, hp, hnel⟩⟩, ?_⟩
            rintro ⟨h1, h2, h3, h4⟩
            exact hdead e' h1 h2 h3 h4 l hl ⟨hp, hnel⟩
        · rw [if_neg hchild]
          -- no children: d is dead
          have hdeadd : ∀ l ∈ F, ¬ ((d' ++ [s']) <+: l ∧ (d' ++ [s']) ≠ l) := by
            rintro l hl ⟨hp, hne⟩
            obtain ⟨t, ht⟩ := hp
            have htne : t ≠ [] := by
              rintro rfl
              rw [List.append_nil] at ht
              exact hne ht
            cases t with
            | nil => exact absurd rfl htne
            | cons s'' t' =>
              cases t' with
              | nil =>
                have hls : l = (d' ++ [s']) ++ [s''] := ht.symm
                obtain ⟨u0, hu0⟩ := c1 (joinSegs l) ⟨l, hl, rfl⟩
                obtain ⟨v, hv⟩ := lookupKey_isSome_mem _ _ (by rw [hu0]; rfl)
                refine hchild (anyKeyDir_of_mem _ (joinSegs l, v) _ hv ?_)
                show goDir (joinSegs l) = joinSegs (d' ++ [s'])
                rw [hls]
                exact goDir_joinSegs _ s'' (hls ▸ (hFv l hl).2)
              | cons s3 t3 =>
                have hc0l : ((d' ++ [s']) ++ [s'']) <+: l
                    ∧ ((d' ++ [s']) ++ [s'']) ≠ l := by
                  constructor
                  · exact ⟨s3 :: t3, by rw [← ht]; simp⟩
                  · intro hc
                    have := congrArg List.length hc
                    rw [← ht] at this
                    simp at this
                have hc0v : validSegs ((d' ++ [s']) ++ [s'']) :=
                  validSegs_downward hc0l.1 (hFv l hl).2
                have hc0nem : ((d' ++ [s']) ++ [s'']) ≠ m := by
                  intro hc
                  exact (hinc l hl).2 (hc ▸ hc0l.1)
                by_cases hc0m : ((d' ++ [s']) ++ [s'']) <+: m
                · exact hdead _ (List.prefix_append _ _)
                    (concat_ne_self _ _) hc0m hc0nem l hl hc0l
                · have hlookup : ∃ v, lookupKey (joinSegs ((d' ++ [s']) ++ [s'']))
                      fs.items = some v := by
                    by_cases hlive : ∃ l' ∈ F,
                        joinSegs ((d' ++ [s']) ++ [s'']) = joinSegs l'
                    · obtain ⟨u0, hu0⟩ := c1 _ hlive
                      exact ⟨_, hu0⟩
                    · refine ⟨_, c2 _ hlive ⟨(d' ++ [s']) ++ [s''],
                        ⟨⟨by simp, Or.inl ⟨l, hl, hc0l⟩⟩, ?_⟩, rfl⟩⟩
                      rintro ⟨_, _, hcm, _⟩
                      exact hc0m hcm
                  obtain ⟨v, hv⟩ := hlookup
                  obtain ⟨v', hv'⟩ := lookupKey_isSome_mem _ _ (by rw [hv]; rfl)
                  refine hchild (anyKeyDir_of_mem _
                    (joinSegs ((d' ++ [s']) ++ [s'']), v') _ hv' ?_)
                  show goDir (joinSegs ((d' ++ [s']) ++ [s'']))
                      = joinSegs (d' ++ [s'])
                  exact goDir_joinSegs _ s'' hc0v
          -- the recursive step
          have hd'm : d' <+: m := (List.prefix_append d' [s']).trans hdm
          have hd'nem : d' ≠ m := by
            intro hc
            have h1 := hdm.length_le
            have h2 := congrArg List.length hc
            simp at h1
            omega
          have hdead' : ∀ e, d' <+: e → e ≠ d' → e <+: m → e ≠ m →
              ∀ l ∈ F, ¬ (e <+: l ∧ e ≠ l) := by
            intro e he1 he2 he3 he4
            rcases List.prefix_or_prefix_of_prefix he3 hdm with hed | hde
            · have hlen1 : d'.length + 1 ≤ e.length := by
                rcases lt_or_eq_of_le he1.length_le with h | h
                · omega
                · exact absurd (he1.eq_of_length h).symm he2
              have he_eq : e = d' ++ [s'] := by
                refine hed.eq_of_length ?_
                have := hed.length_le
                simp only [List.length_append, List.length_singleton] at this ⊢
                omega
              rw [he_eq]
              exact hdeadd
            · by_cases hede : e = d' ++ [s']
              · rw [hede]
                exact hdeadd
              · exact hdead e hde hede he3 he4
          have hchr2 : Chr
              { items := eraseKey (joinSegs (d' ++ [s'])) fs.items,
                dirs := removeDir (joinSegs (d' ++ [s'])) fs.dirs } F
              (fun e => (e ≠ [] ∧
                ((∃ l ∈ F, e <+: l ∧ e ≠ l) ∨ (e <+: m ∧ e ≠ m)))
                ∧ ¬ (d' <+: e ∧ e ≠ d' ∧ e <+: m ∧ e ≠ m)) := by
            have hDrel : ∀ e, ((e ≠ [] ∧
                ((∃ l ∈ F, e <+: l ∧ e ≠ l) ∨ (e <+: m ∧ e ≠ m)))
                ∧ ¬ (d' <+: e ∧ e ≠ d' ∧ e <+: m ∧ e ≠ m))
                ↔ (((e ≠ [] ∧
                  ((∃ l ∈ F, e <+: l ∧ e ≠ l) ∨ (e <+: m ∧ e ≠ m)))
                  ∧ ¬ ((d' ++ [s']) <+: e ∧ e ≠ d' ++ [s'] ∧ e <+: m ∧ e ≠ m))
                  ∧ e ≠ d' ++ [s']) := by
              intro e
              constructor
              · rintro ⟨⟨hne, hor⟩, hnot⟩
                refine ⟨⟨⟨hne, hor⟩, ?_⟩, ?_⟩
                · rintro ⟨h1, h2, h3, h4⟩
                  refine hnot ⟨(List.prefix_append d' [s']).trans h1, ?_, h3, h4⟩
                  intro hc
                  have h5 := h1.length_le
                  have h6 := congrArg List.length hc
                  simp at h5 h6
                  omega
                · intro hc
                  subst hc
                  exact hnot ⟨List.prefix_append _ _, concat_ne_self _ _,
                    hdm, hdnem⟩
              · rintro ⟨⟨⟨hne, hor⟩, hnot⟩, hned⟩
                refine ⟨⟨hne, hor⟩, ?_⟩
                rintro ⟨h1, h2, h3, h4⟩
                have hev : validSegs e := by
                  rcases hor with ⟨l, hl, hp, _⟩ | ⟨hp, _⟩
                  · exact validSegs_downward hp (hFv l hl).2
                  · exact validSegs_downward hp hmv
                rcases List.prefix_or_prefix_of_prefix h3 hdm with hed | hde
                · have : e = d' ++ [s'] := by
                    refine hed.eq_of_length ?_
                    have h5 := hed.length_le
                    have h6 : d'.length + 1 ≤ e.length := by
                      rcases lt_or_eq_of_le h1.length_le with h | h
                      · omega
                      · exact absurd (h1.eq_of_length h).symm h2
                    simp only [List.length_append, List.length_singleton] at h5 ⊢
                    omega
                  exact hned this
                · exact hnot ⟨hde, hned, h3, h4⟩
            have hvalid_of_D : ∀ e, (e ≠ [] ∧
                ((∃ l ∈ F, e <+: l ∧ e ≠ l) ∨ (e <+: m ∧ e ≠ m))) →
                validSegs e := by
              rintro e ⟨_, hor⟩
              rcases hor with ⟨l, hl, hp, _⟩ | ⟨hp, _⟩
              · exact validSegs_downward hp (hFv l hl).2
              · exact validSegs_downward hp hmv
            refine ⟨?_, ?_, ?_, ?_, ?_⟩
            · rintro k ⟨l, hl, rfl⟩
              obtain ⟨u0, hu0⟩ := c1 (joinSegs l) ⟨l, hl, rfl⟩
              refine ⟨u0, ?_⟩
              show lookupKey (joinSegs l)
                (eraseKey (joinSegs (d' ++ [s'])) fs.items) = _
              rw [lookupKey_eraseKey _ _ _ (hFkey l hl), hu0]
            · rintro k hlive ⟨x, hx, rfl⟩
              have hxD := (hDrel x).mp hx
              have hxv : validSegs x := hvalid_of_D x hx.1
              have hkne : joinSegs x ≠ joinSegs (d' ++ [s']) := by
                intro hc
                exact hxD.2 (joinSegs_inj hxv hdv hc)
              show lookupKey (joinSegs x)
                (eraseKey (joinSegs (d' ++ [s'])) fs.items) = _
              rw [lookupKey_eraseKey _ _ _ hkne]
              exact c2 _ hlive ⟨x, hxD.1, rfl⟩
            · intro k hlive hkdir
              show lookupKey k
                (eraseKey (joinSegs (d' ++ [s'])) fs.items) = none
              by_cases hk : k = joinSegs (d' ++ [s'])
              · rw [hk]
                exact lookupKey_eraseKey_self _ _
              · rw [lookupKey_eraseKey _ _ _ hk]
                refine c3 _ hlive ?_
                rintro ⟨x, hx, rfl⟩
                have hxv : validSegs x := hvalid_of_D x hx.1
                have hxne : x ≠ d' ++ [s'] := by
                  intro hc
                  exact hk (by rw [hc])
                exact hkdir ⟨x, (hDrel x).mpr ⟨hx, hxne⟩, rfl⟩
            · intro k
              show hasDir (removeDir (joinSegs (d' ++ [s'])) fs.dirs) k = true ↔ _
              by_cases hk : k = joinSegs (d' ++ [s'])
              · rw [hk, hasDir_removeDir_self]
                constructor
                · intro h; cases h
                · rintro (hroot | ⟨x, hx, hxe⟩)
                  · exact absurd (hk ▸ hroot : joinSegs (d' ++ [s']) = str "/")
                      (joinSegs_ne_root _ hdv hd_ne)
                  · have hxv : validSegs x := hvalid_of_D x ((hDrel x).mp hx).1.1
                    have : x = d' ++ [s'] := joinSegs_inj hxv hdv hxe.symm
                    exact absurd this ((hDrel x).mp hx).2
              · rw [hasDir_removeDir_ne _ _ _ hk, c4 k]
                constructor
                · rintro (hroot | ⟨x, hx, hxe⟩)
                  · exact Or.inl hroot
                  · have hxv : validSegs x := hvalid_of_D x hx.1
                    have hxne : x ≠ d' ++ [s'] := by
                      rintro rfl
                      exact hk hxe
                    exact Or.inr ⟨x, (hDrel x).mpr ⟨hx, hxne⟩, hxe⟩
                · rintro (hroot | ⟨x, hx, hxe⟩)
                  · exact Or.inl hroot
                  · exact Or.inr ⟨x, ((hDrel x).mp hx).1, hxe⟩
            · intro e he
              obtain ⟨hmem, hne⟩ := mem_eraseKey _ _ _ he
              show lookupKey e.1 (eraseKey (joinSegs (d' ++ [s'])) fs.items) = _
              rw [lookupKey_eraseKey _ _ _ hne]
              exact c5 e hmem
          rw [goDir_joinSegs d' s' hdv]
          exact ihB d' (by omega) hd'm hd'nem hdead'
            { items := eraseKey (joinSegs (d' ++ [s'])) fs.items,
              dirs := removeDir (joinSegs (d' ++ [s'])) fs.dirs }
            hchr2 n' (by omega)

set_option maxHeartbeats 1000000 in
/-- Successful `RemoveFile` preserves the invariant and the well-formedness
of the live-file list, deleting the removed canonical file. -/
theorem removeFile_inv (fs : VirtualFS) (L : List (List GoStr)) (p : GoStr)
    (fs' : VirtualFS) (hLOK : LOK L) (hInv : Inv fs L)
    (hok : fs.RemoveFile p = (fs', none)) :
    LOK (L.filter (fun x => !decide (x = canonSegs p)))
    ∧ Inv fs' (L.filter (fun x => !decide (x = canonSegs p))) := by
  obtain ⟨I1, I2, I3, I4, I5⟩ := hInv
  obtain ⟨hLv, hLa⟩ := hLOK
  set m := canonSegs p with hmdef
  have hmv : validSegs m := by rw [hmdef]; exact canonSegs_valid p
  have hfp : normalize p = joinSegs m := by rw [hmdef]; exact normalize_eq_join p
  have hmemF : ∀ l, l ∈ L.filter (fun x => !decide (x = m)) ↔ (l ∈ L ∧ l ≠ m) := by
    intro l
    simp [List.mem_filter]
  simp only [VirtualFS.RemoveFile] at hok
  rw [hfp] at hok
  cases hitem : lookupKey (joinSegs m) fs.items with
  | none => rw [hitem] at hok; simp at hok
  | some item =>
    rw [hitem] at hok
    dsimp only at hok
    by_cases hd : item.isDir
    · simp [hd] at hok
    · rw [if_neg hd] at hok
      have hfs' : cleanupEmptyDirectories
          { fs with items := eraseKey (joinSegs m) fs.items } (joinSegs m)
          = fs' := congrArg Prod.fst hok
      have hmL : m ∈ L := by
        by_cases hlive : ∃ l ∈ L, joinSegs m = joinSegs l
        · obtain ⟨l, hl, hkey⟩ := hlive
          rw [joinSegs_inj hmv (hLv l hl).2 hkey]
          exact hl
        · by_cases hdir : ∃ d, dirKeySet L d ∧ joinSegs m = joinSegs d
          · have h2 := I2 _ hlive hdir
            rw [h2] at hitem
            injection hitem with hi
            subst hi
            exact absurd rfl hd
          · have h3 := I3 _ hlive hdir
            rw [h3] at hitem
            cases hitem
      have hm_ne : m ≠ [] := (hLv m hmL).1
      rcases List.eq_nil_or_concat m with hnil | ⟨d0, s0, hm_eq⟩
      · exact absurd hnil hm_ne
      rw [List.concat_eq_append] at hm_eq
      have hFv : ∀ l ∈ L.filter (fun x => !decide (x = m)),
          l ≠ [] ∧ validSegs l := fun l hl => hLv l ((hmemF l).mp hl).1
      have hinc : ∀ l ∈ L.filter (fun x => !decide (x = m)),
          ¬ l <+: m ∧ ¬ m <+: l := by
        intro l hl
        obtain ⟨hlL, hlm⟩ := (hmemF l).mp hl
        constructor
        · intro hp
          exact hlm (hLa l hlL m hmL hp)
        · intro hp
          exact hlm (hLa m hmL l hlL hp).symm
      have hLOKF : LOK (L.filter (fun x => !decide (x = m))) := by
        refine ⟨hFv, ?_⟩
        intro l hl l' hl' hp
        exact hLa l ((hmemF l).mp hl).1 l' ((hmemF l').mp hl').1 hp
      have hno_between : ∀ e, d0 <+: e → e ≠ d0 → e <+: m → e ≠ m → False := by
        intro e h1 h2 h3 h4
        have hlen1 : d0.length + 1 ≤ e.length := by
          rcases lt_or_eq_of_le h1.length_le with h | h
          · omega
          · exact absurd (h1.eq_of_length h).symm h2
        have hlen2 : e.length ≤ m.length := h3.length_le
        have hlen3 : m.length = d0.length + 1 := by rw [hm_eq]; simp
        exact h4 (h3.eq_of_length (by omega))
      have hdir_ne_m : ∀ x, dirKeySet L x → x ≠ m := by
        rintro x ⟨hne, l, hl, hp, hnel⟩ rfl
        exact hnel (hLa m hmL l hl hp)
      have hdir_valid : ∀ x, dirKeySet L x → validSegs x := by
        rintro x ⟨hne, l, hl, hp, hnel⟩
        exact validSegs_downward hp (hLv l hl).2
      have hkey_ne : ∀ x, x ≠ m → validSegs x → joinSegs x ≠ joinSegs m :=
        fun x hx hxv hc => hx (joinSegs_inj hxv hmv hc)
      have hDrel : ∀ e, ((e ≠ [] ∧
          ((∃ l ∈ L.filter (fun x => !decide (x = m)), e <+: l ∧ e ≠ l)
            ∨ (e <+: m ∧ e ≠ m)))
          ∧ ¬ (d0 <+: e ∧ e ≠ d0 ∧ e <+: m ∧ e ≠ m))
          ↔ dirKeySet L e := by
        intro e
        unfold dirKeySet
        constructor
        · rintro ⟨⟨hne, hor⟩, -⟩
          rcases hor with ⟨l, hl, hp, hnel⟩ | ⟨hp, hne2⟩
          · exact ⟨hne, l, ((hmemF l).mp hl).1, hp, hnel⟩
          · exact ⟨hne, m, hmL, hp, hne2⟩
        · rintro ⟨hne, l, hl, hp, hnel⟩
          refine ⟨⟨hne, ?_⟩, ?_⟩
          · by_cases hlm : l = m
            · subst hlm
              exact Or.inr ⟨hp, hnel⟩
            · exact Or.inl ⟨l, (hmemF l).mpr ⟨hl, hlm⟩, hp, hnel⟩
          · rintro ⟨h1, h2, h3, h4⟩
            exact hno_between e h1 h2 h3 h4
      have hchr1 : Chr { fs with items := eraseKey (joinSegs m) fs.items }
          (L.filter (fun x => !decide (x = m)))
          (fun e => (e ≠ [] ∧
            ((∃ l ∈ L.filter (fun x => !decide (x = m)), e <+: l ∧ e ≠ l)
              ∨ (e <+: m ∧ e ≠ m)))
            ∧ ¬ (d0 <+: e ∧ e ≠ d0 ∧ e <+: m ∧ e ≠ m)) := by
        refine ⟨?_, ?_, ?_, ?_, ?_⟩
        · rintro k ⟨l, hl, rfl⟩
          obtain ⟨hlL, hlm⟩ := (hmemF l).mp hl
          obtain ⟨u0, hu0⟩ := I1 (joinSegs l) ⟨l, hlL, rfl⟩
          refine ⟨u0, ?_⟩
          show lookupKey (joinSegs l) (eraseKey (joinSegs m) fs.items) = _
          rw [lookupKey_eraseKey _ _ _ (hkey_ne l hlm (hLv l hlL).2), hu0]
        · rintro k hlive ⟨x, hx, rfl⟩
          have hxD : dirKeySet L x := (hDrel x).mp hx
          have hxm : x ≠ m := hdir_ne_m x hxD
          have hlive2 : ¬ ∃ l ∈ L, joinSegs x = joinSegs l := by
            rintro ⟨l, hl, hkey⟩
            by_cases hlm : l = m
            · subst hlm
              exact hxm (joinSegs_inj (hdir_valid x hxD) hmv hkey)
            · exact hlive ⟨l, (hmemF l).mpr ⟨hl, hlm⟩, hkey⟩
          show lookupKey (joinSegs x) (eraseKey (joinSegs m) fs.items) = _
          rw [lookupKey_eraseKey _ _ _ (hkey_ne x hxm (hdir_valid x hxD))]
          exact I2 _ hlive2 ⟨x, hxD, rfl⟩
        · intro k hlive hdir
          show lookupKey k (eraseKey (joinSegs m) fs.items) = none
          by_cases hk : k = joinSegs m
          · rw [hk]
            exact lookupKey_eraseKey_self _ _
          · rw [lookupKey_eraseKey _ _ _ hk]
            refine I3 _ ?_ ?_
            · rintro ⟨l, hl, hkey⟩
              by_cases hlm : l = m
              · subst hlm
                exact hk hkey
              · exact hlive ⟨l, (hmemF l).mpr ⟨hl, hlm⟩, hkey⟩
            · rintro ⟨x, hx, rfl⟩
              exact hdir ⟨x, (hDrel x).mpr hx, rfl⟩
        · intro k
          show hasDir fs.dirs k = true ↔ _
          rw [I4 k]
          constructor
          · rintro (hroot | ⟨x, hx, hxe⟩)
            · exact Or.inl hroot
            · exact Or.inr ⟨x, (hDrel x).mpr hx, hxe⟩
          · rintro (hroot | ⟨x, hx, hxe⟩)
            · exact Or.inl hroot
            · exact Or.inr ⟨x, (hDrel x).mp hx, hxe⟩
        · intro e he
          obtain ⟨hmem, hne⟩ := mem_eraseKey _ _ _ he
          show lookupKey e.1 (eraseKey (joinSegs m) fs.items) = some e.2
          rw [lookupKey_eraseKey _ _ _ hne]
          exact I5 e hmem
      have hdead0 : ∀ e, d0 <+: e → e ≠ d0 → e <+: m → e ≠ m →
          ∀ l ∈ L.filter (fun x => !decide (x = m)), ¬ (e <+: l ∧ e ≠ l) :=
        fun e h1 h2 h3 h4 => (hno_between e h1 h2 h3 h4).elim
      have hd0m : d0 <+: m := by
        rw [hm_eq]
        exact List.prefix_append _ _
      have hd0nem : d0 ≠ m := by
        intro hc
        have := congrArg List.length hc
        rw [hm_eq] at this
        simp at this
      have hfuel : d0.length + 1 ≤ (joinSegs m).length + 1 := by
        have h1 := joinSegs_length m
        have h2 : m.length = d0.length + 1 := by rw [hm_eq]; simp
        omega
      have hwalk := cleanupFuel_walk (L.filter (fun x => !decide (x = m))) m
        hFv hmv hinc d0.length d0 le_rfl hd0m hd0nem hdead0
        { fs with items := eraseKey (joinSegs m) fs.items } hchr1
        ((joinSegs m).length + 1) hfuel
      have hgd : goDir (joinSegs m) = joinSegs d0 := by
        rw [hm_eq]
        exact goDir_joinSegs d0 s0 (hm_eq ▸ hmv)
      refine ⟨hLOKF, ?_⟩
      show Chr fs' (L.filter (fun x => !decide (x = m)))
        (dirKeySet (L.filter (fun x => !decide (x = m))))
      rw [← hfs']
      unfold cleanupEmptyDirectories
      rw [hgd]
      exact hwalk

/-- The empty filesystem satisfies the invariant with the empty live list. -/
theorem inv_initial : LOK ([] : List (List GoStr)) ∧ Inv initialVFS [] := by
  constructor
  · exact ⟨fun l hl => absurd hl (List.not_mem_nil l),
      fun l hl => absurd hl (List.not_mem_nil l)⟩
  · refine ⟨?_, ?_, ?_, ?_, ?_⟩
    · rintro k ⟨l, hl, -⟩
      exact absurd hl (List.not_mem_nil l)
    · rintro k - ⟨d, ⟨-, l, hl, -⟩, -⟩
      exact absurd hl (List.not_mem_nil l)
    · intro k _ _
      rfl
    · intro k
      show hasDir [str "/"] k = true ↔ _
      constructor
      · intro h
        have := hasDir_mem _ _ h
        exact Or.inl (List.mem_singleton.mp this)
      · rintro (rfl | ⟨d, ⟨-, l, hl, -⟩, -⟩)
        · rw [hasDir, if_pos rfl]
        · exact absurd hl (List.not_mem_nil l)
    · intro e he
      exact absurd he (List.not_mem_nil e)

/-- Every successful clobber-free operation sequence preserves the invariant,
with the live list evolved by `segsLiveStep`. -/
theorem runOpsSafe_inv :
    ∀ (ops : List FsOp) (fs : VirtualFS) (L : List (List GoStr))
      (fs' : VirtualFS), LOK L → Inv fs L → runOpsSafe fs ops = some fs' →
      LOK (ops.foldl segsLiveStep L) ∧ Inv fs' (ops.foldl segsLiveStep L) := by
  intro ops
  induction ops with
  | nil =>
    intro fs L fs' hLOK hInv hrun
    simp only [runOpsSafe] at hrun
    injection hrun with h
    subst h
    exact ⟨hLOK, hInv⟩
  | cons op ops ih =>
    intro fs L fs' hLOK hInv hrun
    cases op with
    | add p u =>
      simp only [runOpsSafe] at hrun
      by_cases hclob : addClobbers fs p = true
      · rw [if_pos hclob] at hrun
        cases hrun
      · rw [if_neg hclob] at hrun
        have hclob' : addClobbers fs p = false := by
          revert hclob
          cases addClobbers fs p <;> simp
        cases hadd : fs.AddFile p u with
        | mk fs1 err =>
          rw [hadd] at hrun
          cases err with
          | none =>
            dsimp only at hrun
            have h := addFile_inv fs L p u fs1 hLOK hInv hclob' hadd
            exact ih fs1 (canonSegs p :: L) fs' h.1 h.2 hrun
          | some e =>
            dsimp only at hrun
            cases hrun
    | remove p =>
      simp only [runOpsSafe] at hrun
      cases hrem : fs.RemoveFile p with
      | mk fs1 err =>
        rw [hrem] at hrun
        cases err with
        | none =>
          dsimp only at hrun
          have h := removeFile_inv fs L p fs1 hLOK hInv hrem
          exact ih fs1 (L.filter (fun x => !decide (x = canonSegs p))) fs'
            h.1 h.2 hrun
        | some e =>
          dsimp only at hrun
          cases hrun

/-- `memStr` is plain list membership. -/
theorem memStr_iff (p : GoStr) (l : List GoStr) :
    memStr p l = true ↔ p ∈ l := by
  induction l with
  | nil =>
    constructor
    · intro h
      cases h
    · intro h
      exact absurd h (List.not_mem_nil p)
  | cons q rest ih =>
    by_cases h : q = p
    · subst h
      rw [memStr, if_pos rfl]
      simp
    · rw [memStr, if_neg h, ih]
      constructor
      · exact List.mem_cons_of_mem _
      · intro hm
        exact (List.mem_cons.mp hm).resolve_left (fun hc => h hc.symm)

/-- The string-level live fold is the image under `joinSegs` of the
segment-level live fold. -/
theorem segsLive_map :
    ∀ (ops : List FsOp) (L : List (List GoStr)), (∀ l ∈ L, validSegs l) →
      ops.foldl liveStep (L.map joinSegs)
        = (ops.foldl segsLiveStep L).map joinSegs
      ∧ ∀ l ∈ ops.foldl segsLiveStep L, validSegs l := by
  intro ops
  induction ops with
  | nil =>
    intro L hLv
    exact ⟨rfl, hLv⟩
  | cons op ops ih =>
    intro L hLv
    cases op with
    | add p u =>
      have hLv2 : ∀ l ∈ canonSegs p :: L, validSegs l := by
        intro l hl
        rcases List.mem_cons.mp hl with rfl | hl2
        · exact canonSegs_valid p
        · exact hLv l hl2
      have h := ih (canonSegs p :: L) hLv2
      refine ⟨?_, h.2⟩
      show ops.foldl liveStep (normalize p :: L.map joinSegs) = _
      rw [show normalize p :: L.map joinSegs
          = (canonSegs p :: L).map joinSegs from by
        rw [List.map_cons, normalize_eq_join]]
      exact h.1
    | remove p =>
      have hLv2 : ∀ l ∈ L.filter (fun x => !decide (x = canonSegs p)),
          validSegs l := fun l hl => hLv l (List.mem_filter.mp hl).1
      have hfeq : (L.map joinSegs).filter (fun q => !decide (q = normalize p))
          = (L.filter (fun x => !decide (x = canonSegs p))).map joinSegs := by
        rw [List.filter_map]
        congr 1
        apply List.filter_congr
        intro x hx
        simp only [Function.comp_apply]
        congr 1
        rw [decide_eq_decide, normalize_eq_join]
        constructor
        · intro h
          exact joinSegs_inj (hLv x hx) (canonSegs_valid p) h
        · intro h
          rw [h]
      have h := ih (L.filter (fun x => !decide (x = canonSegs p))) hLv2
      refine ⟨?_, h.2⟩
      show ops.foldl liveStep
        ((L.map joinSegs).filter (fun q => !decide (q = normalize p))) = _
      rw [hfeq]
      exact h.1

set_option maxHeartbeats 1000000 in
/-- C1 (amended): for every sequence of successful `AddFile`/`RemoveFile`
operations from the empty filesystem in which no `AddFile` lands strictly
below an existing file's path, `Exists(p)` returns true iff `p` is the
canonical path of a file that was added and not subsequently removed, a
proper ancestor directory of such a file's path, or `"/"`.  (The clobber
restriction is necessary: see `exists_iff_counterexample`.) -/
theorem exists_iff_amended (ops : List FsOp) (fs' : VirtualFS)
    (hrun : runOpsSafe initialVFS ops = some fs') (p : GoStr) :
    fs'.Exists p = c1RHS ops p := by
  have hmain := runOpsSafe_inv ops initialVFS [] fs' inv_initial.1
    inv_initial.2 hrun
  obtain ⟨⟨hLv, hLa⟩, I1, I2, I3, I4, I5⟩ := hmain
  have hsegmap := segsLive_map ops []
    (fun l hl => absurd hl (List.not_mem_nil l))
  have hlive_eq : liveFiles ops
      = (ops.foldl segsLiveStep []).map joinSegs := by
    have h := hsegmap.1
    unfold liveFiles
    simpa using h
  have hLHS : fs'.Exists p = true ↔
      ((∃ l ∈ ops.foldl segsLiveStep [], p = joinSegs l)
        ∨ (∃ d, dirKeySet (ops.foldl segsLiveStep []) d ∧ p = joinSegs d)
        ∨ p = str "/") := by
    rw [VirtualFS.Exists, Bool.or_eq_true]
    constructor
    · rintro (hsome | hdir)
      · by_cases h1 : ∃ l ∈ ops.foldl segsLiveStep [], p = joinSegs l
        · exact Or.inl h1
        · by_cases h2 : ∃ d, dirKeySet (ops.foldl segsLiveStep []) d
              ∧ p = joinSegs d
          · exact Or.inr (Or.inl h2)
          · rw [I3 p h1 h2] at hsome
            cases hsome
      · rcases (I4 p).mp hdir with hroot | hd
        · exact Or.inr (Or.inr hroot)
        · exact Or.inr (Or.inl hd)
    · rintro (⟨l, hl, rfl⟩ | ⟨d, hd, rfl⟩ | hroot)
      · obtain ⟨u0, hu0⟩ := I1 _ ⟨l, hl, rfl⟩
        exact Or.inl (by rw [hu0]; rfl)
      · by_cases h1 : ∃ l ∈ ops.foldl segsLiveStep [], joinSegs d = joinSegs l
        · obtain ⟨u0, hu0⟩ := I1 _ h1
          exact Or.inl (by rw [hu0]; rfl)
        · exact Or.inl (by rw [I2 _ h1 ⟨d, hd, rfl⟩]; rfl)
      · exact Or.inr ((I4 p).mpr (Or.inl hroot))
  have hRHS : c1RHS ops p = true ↔
      ((∃ l ∈ ops.foldl segsLiveStep [], p = joinSegs l)
        ∨ (∃ d, dirKeySet (ops.foldl segsLiveStep []) d ∧ p = joinSegs d)
        ∨ p = str "/") := by
    unfold c1RHS
    simp only [Bool.or_eq_true, List.any_eq_true, memStr_iff,
      decide_eq_true_eq, hlive_eq]
    constructor
    · rintro ((hmem | hanc) | hroot)
      · obtain ⟨l, hl, hpe⟩ := List.mem_map.mp hmem
        exact Or.inl ⟨l, hl, hpe.symm⟩
      · obtain ⟨q, hq, hmem⟩ := hanc
        obtain ⟨l, hl, rfl⟩ := List.mem_map.mp hq
        rw [mem_strictAncestors p l (hLv l hl).2] at hmem
        obtain ⟨d, hd1, hd2, rfl⟩ := hmem
        rcases List.eq_nil_or_concat d with rfl | ⟨d0, s0, rfl⟩
        · exact Or.inr (Or.inr rfl)
        · exact Or.inr (Or.inl ⟨d0.concat s0, ⟨by simp, l, hl, hd1, hd2⟩, rfl⟩)
      · exact Or.inr (Or.inr hroot)
    · rintro (⟨l, hl, rfl⟩ | ⟨d, ⟨hdnil, l, hl, hd1, hd2⟩, rfl⟩ | hroot)
      · exact Or.inl (Or.inl (List.mem_map.mpr ⟨l, hl, rfl⟩))
      · refine Or.inl (Or.inr ⟨joinSegs l, List.mem_map.mpr ⟨l, hl, rfl⟩, ?_⟩)
        rw [mem_strictAncestors _ l (hLv l hl).2]
        exact ⟨d, hd1, hd2, rfl⟩
      · exact Or.inr hroot
  rw [Bool.eq_iff_iff, hLHS, hRHS]

/-- Witness for `exists_iff_amended`: the single clobber-free operation
`AddFile("/a/b.txt","u")` runs successfully, and the theorem applied to it
evaluates `Exists("/a")` against the claimed right-hand side. -/
theorem exists_iff_amended_witness :
    ((initialVFS.AddFile (str "/a/b.txt") (str "u")).1.Exists (str "/a"))
      = c1RHS [FsOp.add (str "/a/b.txt") (str "u")] (str "/a") :=
  exists_iff_amended [FsOp.add (str "/a/b.txt") (str "u")]
    (initialVFS.AddFile (str "/a/b.txt") (str "u")).1 (by rfl) (str "/a")

end ProxyDAV
